import Mathlib

/-!
Verification of the intervention/IIA measurement subsystem of the
circuits-benchmark repository.

This file shallowly embeds the relevant parts of the source:

* `circuits_benchmark/metrics/iia.py` — the causal-effect evaluator
  (`evaluate_iia`, `build_hook_fns`, `regular_intervention_hook_fn`),
* `utils/resampling_ablation_loss/resampling_ablation_loss.py` — the
  combinatorial intervention sampler (`get_interventions`),
* `iit_utils/correspondence.py` — the address model, edge derivation and
  correspondence persistence,
* `circuits_benchmark/utils/iit/dataset.py` — the unique-data selector
  (`get_unique_data`).

Tensors are represented as nested lists of rationals (idealized exact
arithmetic standing in for floating point), except for the KL-divergence
computation which genuinely needs `exp`/`log` and is embedded over `ℝ`.
`torch.Tensor.mean()` of an empty tensor is NaN; we model that by
returning `Option` values, with `none` standing for NaN.
-/

/-! ### List-tensor primitives (torch semantics over ℚ) -/

/-- Rank-1 tensor (a row over the last axis). -/
abbrev T1 : Type := List ℚ

/-- Rank-2 tensor. -/
abbrev T2 : Type := List T1

/-- Rank-3 tensor, used as (batch, pos, d) activations and logits. -/
abbrev T3 : Type := List T2

/-- Rank-4 tensor, used as (batch, pos, head, d) activations. -/
abbrev T4 : Type := List T3

/-- Mean of a flat list of entries; `none` models torch's NaN on an
empty tensor. -/
def torchMean (xs : List ℚ) : Option ℚ :=
  if xs.isEmpty then none else some (xs.sum / xs.length)

/-- Real-valued variant of `torchMean`. -/
noncomputable def torchMeanR (xs : List ℝ) : Option ℝ :=
  if xs.isEmpty then none else some (xs.sum / xs.length)

/-- Elementwise shape of a rank-2 tensor: the list of row lengths
(its length is the leading dimension). -/
def shape2 (m : T2) : List ℕ := m.map List.length

/-- Shape of a rank-3 tensor. -/
def shape3 (x : T3) : List (List ℕ) := x.map shape2

/-- Shape of a rank-4 tensor. -/
def shape4 (x : T4) : List (List (List ℕ)) := x.map shape3

/-- Models `torch.zeros_like` on a rank-3 activation. -/
def zerosLikeT3 (x : T3) : T3 := x.map (fun m => m.map (fun r => r.map (fun _ => (0 : ℚ))))

/-- Elementwise sum of rank-1 tensors (`torch` broadcasting is not needed:
operands always share a shape here; `zipWith` keeps the common shape). -/
def vAdd (a b : T1) : T1 := List.zipWith (· + ·) a b

/-- Elementwise sum of rank-2 tensors. -/
def mAdd (a b : T2) : T2 := List.zipWith vAdd a b

/-- Elementwise sum of rank-3 tensors. -/
def cAdd (a b : T3) : T3 := List.zipWith mAdd a b

/-- Models `x.mean(dim=0)` for a rank-3 tensor `x` of batch size `n`:
elementwise sum over the batch divided by `n`.  For an empty batch the
result is the empty tensor (torch would produce a NaN-filled tensor; no
claim evaluates that case). -/
def meanDim0T3 (x : T3) : T2 :=
  match x with
  | [] => []
  | h :: t => (t.foldl mAdd h).map (fun r => r.map (fun v => v / ((t.length + 1 : ℕ) : ℚ)))

/-- Models `x.mean(dim=0)` for a rank-4 tensor. -/
def meanDim0T4 (x : T4) : T3 :=
  match x with
  | [] => []
  | h :: t =>
    (t.foldl cAdd h).map (fun m => m.map (fun r => r.map (fun v => v / ((t.length + 1 : ℕ) : ℚ))))

/-- The `mean` ablation replacement value for a rank-3 hook activation,
from `build_hook_fns` (iia.py lines 256-258):
`cache[hook_name].mean(dim=0).repeat(orig_shape[0], 1, 1)` — the
batch-mean broadcast back to the original batch size. -/
def meanAblationT3 (x : T3) : T3 := List.replicate x.length (meanDim0T3 x)

/-- The `mean` ablation replacement value for a rank-4 hook activation,
from `build_hook_fns` (iia.py lines 259-261):
`cache[hook_name].mean(dim=0).repeat(orig_shape[0], 1, 1, 1)`. -/
def meanAblationT4 (x : T4) : T4 := List.replicate x.length (meanDim0T4 x)

/-! ### The intervention hook and `build_hook_fns` (iia.py) -/

/-- Error taxonomy of the intervention engine; the spec calls the unknown
ablation type failure `UnsupportedAblationType` (the source raises
`ValueError(f"Unknown ablation type: ...")`, iia.py line 268). -/
inductive AblationError
  | unsupportedAblationType (ablation_type : String)
deriving DecidableEq

/-- Embeds `regular_intervention_hook_fn` (iia.py lines 27-38) for a
rank-3 activation: with no head index the whole activation is replaced
by the patching data; with a head index only that index of the last
axis is overwritten, other entries kept. -/
def regular_intervention_hook_fn (activation : T3) (corrupted : T3) (head_index : Option ℕ) : T3 :=
  match head_index with
  | none => corrupted
  | some h =>
    List.zipWith
      (fun arow crow =>
        List.zipWith (fun av cv => av.set h (cv.getD h 0)) arow crow)
      activation corrupted

/-- Embeds the patching-data dispatch of `build_hook_fns`
(iia.py lines 243-268) for rank-3 hooks (the rank-4 `mean` branch differs
only in the `repeat` arity, see `meanAblationT4`).  The ablation type is a
runtime string in the source; anything outside
{"resample", "mean", "zero"} raises. -/
def build_hook_fns_patching_data (ablation_type : String)
    (base_model_clean hypothesis_model_clean base_model_corrupted hypothesis_model_corrupted : T3) :
    Except AblationError (T3 × T3) :=
  if ablation_type = "resample" then
    .ok (base_model_corrupted, hypothesis_model_corrupted)
  else if ablation_type = "mean" then
    .ok (meanAblationT3 base_model_clean, meanAblationT3 hypothesis_model_clean)
  else if ablation_type = "zero" then
    .ok (zerosLikeT3 base_model_clean, zerosLikeT3 hypothesis_model_clean)
  else
    .error (.unsupportedAblationType ablation_type)

/-! ### Categorical metrics of `evaluate_iia` (iia.py lines 154-203) -/

/-- First index attaining the maximum of a row, as `torch.argmax(_, dim=-1)`
computes on CPU (ties resolved to the earliest index; the source takes
arg-max of the log-softmaxed logits, and log-softmax is strictly monotone,
so arg-max indices agree with arg-max of the raw logits). -/
def argmaxIdx (xs : List ℚ) : ℕ :=
  match xs with
  | [] => 0
  | x :: rest =>
    (rest.enum.foldl (fun best p => if p.2 > best.2 then (p.1 + 1, p.2) else best) (0, x)).1

/-- Per-position predicted labels of a logits tensor
(`t.argmax(logits, dim=-1)` after log-softmax, iia.py lines 169-172). -/
def labelsOf (x : T3) : List (List ℕ) := x.map (fun row => row.map argmaxIdx)

/-- Models slicing `logits[:, 1:]`: the BOS position is removed from every
batch example before comparison (iia.py lines 155-158). -/
def dropBos (x : T3) : T3 := x.map (List.drop 1)

/-- Per-batch-example agreement indicator
`(base_intervened_labels == hypothesis_intervened_labels).all(dim=-1).float()`
(iia.py line 183). -/
def same_outputs_vec (base_labels hypothesis_labels : List (List ℕ)) : List ℚ :=
  (base_labels.zip hypothesis_labels).map (fun p => if p.1 = p.2 then (1 : ℚ) else 0)

/-- Accuracy `same_outputs_between_both_models_after_intervention.mean().item()`
(iia.py line 184). -/
def accuracyMetric (base_labels hypothesis_labels : List (List ℕ)) : Option ℚ :=
  torchMean (same_outputs_vec base_labels hypothesis_labels)

/-- Effect of a node `(original_labels != intervened_labels).float().mean()`
(iia.py lines 187-188): fraction of all (batch, pos) entries whose label
changed under the intervention. -/
def effectMetric (original_labels intervened_labels : List (List ℕ)) : Option ℚ :=
  torchMean
    (((original_labels.zip intervened_labels).map
      (fun p => (p.1.zip p.2).map (fun q => if q.1 = q.2 then (0 : ℚ) else 1))).flatten)

/-- Boolean-mask selection `xs[mask]` on a flat tensor. -/
def maskSelect (xs : List ℚ) (mask : List Bool) : List ℚ :=
  ((xs.zip mask).filter (fun p => p.2)).map (fun p => p.1)

/-- Effective accuracy for the resample ablation (iia.py lines 197-203):
the agreement indicator restricted to batch examples whose clean and
corrupted ground-truth outputs differ, then averaged.  `none` models the
NaN produced by `.mean()` of an empty selection. -/
def effective_accuracy {O : Type} [DecidableEq O]
    (base_labels hypothesis_labels : List (List ℕ))
    (clean_outputs corrupted_outputs : List O) : Option ℚ :=
  torchMean
    (maskSelect (same_outputs_vec base_labels hypothesis_labels)
      ((clean_outputs.zip corrupted_outputs).map (fun p => decide (p.1 ≠ p.2))))

/-! ### The evaluator run on one node with the zero ablation

The two networks are abstracted to their forward-pass behaviour: a model
can be run plainly, run with a scoped hook override at a named hook point
(`model.hooks([(hook_name, hook_fn)])`), and queried for its clean
activation cache at a hook (`run_with_cache`).  Everything downstream of
the forward passes is embedded concretely. -/

/-- Abstraction of a `HookedTracrTransformer` as used by `evaluate_iia`. -/
structure Net (I : Type) where
  run : I → T3
  runWithHook : String → (T3 → T3) → I → T3
  cleanCache : String → I → T3

/-- Result row of `evaluate_iia` for one node (categorical branch,
iia.py lines 190-195), kl divergence aside (treated separately over ℝ). -/
structure IiaResult where
  accuracy : Option ℚ
  base_model_effect : Option ℚ
  hypothesis_model_effect : Option ℚ
  base_intervened_labels : List (List ℕ)
  hypothesis_intervened_labels : List (List ℕ)

/-- Embeds one iteration of the `evaluate_iia` node loop
(iia.py lines 137-195) for the `zero` ablation type at a full-tensor hook
(`head_index = None`, e.g. the embedding hook): both models run clean,
each model's patch is `t.zeros_like` of its own clean-cache activation at
the hook, both models run again under the scoped hook override, BOS is
dropped, labels are taken, and the categorical metrics are computed. -/
def evaluate_iia_zero {I : Type} (base_model hypothesis_model : Net I)
    (hook_name : String) (inputs : I) : IiaResult :=
  let base_model_original_logits := base_model.run inputs
  let hypothesis_model_original_logits := hypothesis_model.run inputs
  let base_patch := zerosLikeT3 (base_model.cleanCache hook_name inputs)
  let hypothesis_patch := zerosLikeT3 (hypothesis_model.cleanCache hook_name inputs)
  let base_model_intervened_logits :=
    base_model.runWithHook hook_name
      (fun act => regular_intervention_hook_fn act base_patch none) inputs
  let hypothesis_model_intervened_logits :=
    hypothesis_model.runWithHook hook_name
      (fun act => regular_intervention_hook_fn act hypothesis_patch none) inputs
  let base_original_labels := labelsOf (dropBos base_model_original_logits)
  let hypothesis_original_labels := labelsOf (dropBos hypothesis_model_original_logits)
  let base_intervened_labels := labelsOf (dropBos base_model_intervened_logits)
  let hypothesis_intervened_labels := labelsOf (dropBos hypothesis_model_intervened_logits)
  { accuracy := accuracyMetric base_intervened_labels hypothesis_intervened_labels
    base_model_effect := effectMetric base_original_labels base_intervened_labels
    hypothesis_model_effect := effectMetric hypothesis_original_labels hypothesis_intervened_labels
    base_intervened_labels := base_intervened_labels
    hypothesis_intervened_labels := hypothesis_intervened_labels }

/-! ### KL divergence of the intervened log-probability distributions
(iia.py lines 163-180), embedded over `ℝ` because it genuinely uses
`exp`/`log`. -/

/-- Models `t.nn.functional.log_softmax(row, dim=-1)`:
`x_i - log (Σ_j exp x_j)` applied to each innermost row. -/
noncomputable def log_softmax (xs : List ℝ) : List ℝ :=
  xs.map (fun x => x - Real.log ((xs.map Real.exp).sum))

/-- One (batch, pos) cell of
`t.nn.functional.kl_div(input, target, reduction="none", log_target=True).sum(dim=-1)`
with `input` the hypothesis log-probs and `target` the base log-probs:
pointwise `exp(target) * (target - input)`, summed over the vocabulary
axis (iia.py lines 175-180). -/
noncomputable def kl_div_row (base_log_probs hypothesis_log_probs : List ℝ) : ℝ :=
  ((base_log_probs.zip hypothesis_log_probs).map
    (fun p => Real.exp p.1 * (p.1 - p.2))).sum

/-- The `kl_div` metric: log-softmax both intervened logit tensors, take
the pointwise kl terms, sum over the vocabulary axis and average over
batch and position (`.sum(dim=-1).mean()`); `none` models NaN on an
empty mean. -/
noncomputable def kl_div_metric (base_logits hypothesis_logits : List (List (List ℝ))) :
    Option ℝ :=
  torchMeanR
    (((base_logits.zip hypothesis_logits).map
      (fun bp => (bp.1.zip bp.2).map
        (fun p => kl_div_row (log_softmax p.1) (log_softmax p.2)))).flatten)

/-! ### The combinatorial intervention sampler
(`get_interventions`, resampling_ablation_loss.py lines 67-99). -/

/-- Decodes intervention index `i` over `k` hook locations and `m`
intervention types as a base-`m`, `k`-digit number, most significant digit
first, left-padded with digit 0 (the first intervention type).  This is
`np.base_repr(index, base=m).zfill(k)` followed by `int(digit)` on each
character (resampling_ablation_loss.py lines 96-97), which agrees with
plain base-`m` digit extraction whenever `m ≤ 10` (all digits are then
decimal characters; `len(options)` is the size of a small fixed enum, so
this always holds in the source). -/
def decodeAssignment (i k m : ℕ) : List ℕ :=
  (List.range k).map (fun j => i / m ^ (k - 1 - j) % m)

/-- Re-encodes a most-significant-first digit list (the inverse of
`decodeAssignment` on valid inputs). -/
def fromDigits (m : ℕ) (ds : List ℕ) : ℕ :=
  ds.foldl (fun acc d => acc * m + d) 0

/-- The index set the sampler walks (resampling_ablation_loss.py
lines 89-92): all of `range(m^k)` when the budget covers the whole joint
space, otherwise `random.sample(range(m^k), budget)` — modelled by the
`sample` argument, which carries whatever the (globally seeded) sampler
returned; the theorems hypothesize only its documented contract
(distinct members of `range(m^k)`, `budget` of them). -/
def get_intervention_indices (k m budget : ℕ) (sample : List ℕ) : List ℕ :=
  if budget < m ^ k then sample else List.range (m ^ k)

/-- Joint assignments produced by `get_interventions`: each index is
decoded to digits and each digit selects `options[digit]`
(`options` has length `m`; intervention types are modelled as naturals). -/
def get_interventions (k m budget : ℕ) (sample : List ℕ) (options : List ℕ) : List (List ℕ) :=
  (get_intervention_indices k m budget sample).map
    (fun i => (decodeAssignment i k m).map (fun d => options.getD d 0))

/-- Models `should_hook_name_be_skipped_due_to_filters`
(resampling_ablation_loss.py lines 102-111): a hook is kept iff some
filter string occurs in its name. -/
def should_hook_name_be_skipped_due_to_filters (hook_name : String) (hook_filters : List String) :
    Bool :=
  !(hook_filters.any (fun f => hook_name.containsSubstr f))

/-! ### Global random state (claim about seeding)

`get_interventions` calls `random.sample` (resampling_ablation_loss.py
line 90) and `get_unique_data` calls `np.random.choice`
(dataset.py line 149); neither function takes or sets a seed, so both
read the interpreter-global random state.  We model that state as a
stream of draws `ℕ → ℕ` and `random.sample(range(n), b)` as
selection-without-replacement driven by successive draws. -/

/-- Selection without replacement from `avail`, consuming draws
`st j, st (j+1), ...` of the global stream. -/
def sampleWithoutReplacement (avail : List ℕ) (b : ℕ) (st : ℕ → ℕ) (j : ℕ) : List ℕ :=
  match b with
  | 0 => []
  | b' + 1 =>
    let i := st j % avail.length
    avail.getD i 0 :: sampleWithoutReplacement (avail.eraseIdx i) b' st (j + 1)

/-- Models `random.sample(range(n), b)` under global state `st`. -/
def randomSample (n b : ℕ) (st : ℕ → ℕ) : List ℕ :=
  sampleWithoutReplacement (List.range n) b st 0

/-- The index list of `get_interventions` as a function of the inputs
together with the global random state it implicitly reads. -/
def get_intervention_indices_global (k m budget : ℕ) (st : ℕ → ℕ) : List ℕ :=
  if budget < m ^ k then randomSample (m ^ k) budget st else List.range (m ^ k)

/-! ### Address model and correspondence (iit_utils/correspondence.py)

Structured tensor sub-selectors are modelled as the closed tagged variant
the design notes call for: `Ix[[None]]` (no restriction) and
`Ix[:, :, u, :]` with `u` an integer head or `None`. -/

/-- The `iit.utils.index.TorchIndex` values produced by the source. -/
inductive TorchIdx
  | ixNone
  | ixHead (h : Option ℤ)
deriving DecidableEq

/-- Selection semantics of a `TorchIdx`: which head (third axis entry) it
restricts to, `none` meaning no restriction (every batch/position).
`Ix[:, :, None, :]` is an all-slice index and restricts nothing. -/
def headRestriction : TorchIdx → Option ℤ
  | .ixNone => none
  | .ixHead none => none
  | .ixHead (some h) => some h

/-- A `TracrHLNode` (correspondence.py lines 10-45): name, label,
num_classes and an optional structured index.  Equality is by all four
fields. -/
structure HLNode where
  name : String
  label : String
  num_classes : ℕ
  index : Option TorchIdx
deriving DecidableEq

/-- An `iit.model_pairs.LLNode`: hook name, structured index, optional
submodule; equality by value. -/
structure LLNode where
  name : String
  index : TorchIdx
  subm : Option String
deriving DecidableEq

/-- A correspondence, `dict[TracrHLNode, set[mp.LLNode]]`, modelled as an
association list in dict insertion order (Python dict iteration order);
keys are unique and each value is a finite set of `LLNode`s represented
as a list. -/
abbrev Corr : Type := List (HLNode × List LLNode)

/-- An `EdgeCorr` namedtuple (correspondence.py line 122). -/
structure EdgeCorr where
  hookpoint_from : String
  index_from : TorchIdx
  hookpoint_to : String
  index_to : TorchIdx
deriving DecidableEq

/-- Error taxonomy of the address model; the kind check is the
`assert attn_or_mlp in ["attn", "mlp"]` assertions (correspondence.py
lines 61 and 73), which the spec names `InvalidComponentKind`. -/
inductive AddressError
  | invalidComponentKind (kind : String)
  | unknownStyle (style : String)
  | unitNotNone
deriving DecidableEq

/-- The `unit` entry of a high-level location `(layer, attn_or_mlp, unit)`:
it is either already a `TorchIndex`, an integer head, or `None`. -/
inductive HLUnit
  | unitIdx (t : TorchIdx)
  | unitHead (h : ℤ)
  | unitNone
deriving DecidableEq

/-- Embeds the inner `hook_name` helper of
`TracrCorrespondence.make_hl_ll_corr` (correspondence.py lines 59-67).
The kind assertion fires before the style is examined.  The `wrapper`
style interpolates `str(loc)`; its exact Python repr is not modelled
beyond being some string mentioning the layer and kind, which no claim
touches. -/
def hook_name (layer : ℕ) (attn_or_mlp : String) (style : String) :
    Except AddressError String :=
  if attn_or_mlp ≠ "attn" ∧ attn_or_mlp ≠ "mlp" then
    .error (.invalidComponentKind attn_or_mlp)
  else if style = "tl" then
    .ok ("blocks." ++ toString layer ++ "." ++ attn_or_mlp ++ "." ++
      (if attn_or_mlp = "attn" then "hook_result" else "hook_post"))
  else if style = "wrapper" then
    .ok ("mod.blocks." ++ toString layer ++ ".mod." ++ attn_or_mlp ++ ".hook_point")
  else
    .error (.unknownStyle style)

/-- Embeds the inner `idx` helper of `TracrCorrespondence.make_hl_ll_corr`
(correspondence.py lines 69-77): a unit that is already a `TorchIndex` is
returned untouched; otherwise the kind is asserted, `attn` yields
`Ix[:, :, unit, :]` and `mlp` asserts `unit is None` and yields
`Ix[[None]]`. -/
def idx (attn_or_mlp : String) (unit : HLUnit) : Except AddressError TorchIdx :=
  match unit with
  | .unitIdx t => .ok t
  | _ =>
    if attn_or_mlp ≠ "attn" ∧ attn_or_mlp ≠ "mlp" then
      .error (.invalidComponentKind attn_or_mlp)
    else if attn_or_mlp = "attn" then
      .ok (.ixHead (match unit with
        | .unitHead h => some h
        | _ => none))
    else
      match unit with
      | .unitNone => .ok .ixNone
      | _ => .error .unitNotNone

/-- The address model applied to one high-level location, in the
evaluation order of `make_hl_ll_corr` (`hook_name(hl_loc, style)` is
evaluated before `idx(hl_loc)` when a `TracrHLNode` is built,
correspondence.py lines 83-88). -/
def address_model (layer : ℕ) (attn_or_mlp : String) (unit : HLUnit) (style : String) :
    Except AddressError (String × TorchIdx) := do
  let hn ← hook_name layer attn_or_mlp style
  let i ← idx attn_or_mlp unit
  return (hn, i)

/-! ### Edge derivation (`make_edge_corr`, correspondence.py lines 125-151) -/

/-- The endpoint-resolution scan of `make_edge_corr`: one pass over the
correspondence keys; a key whose label equals the edge's from-label
becomes the from-node, `elif` a key whose label equals the to-label
becomes the to-node; later matches overwrite earlier ones. -/
def find_endpoints (tracr_n_from tracr_n_to : String) (corr : Corr) :
    Option HLNode × Option HLNode :=
  corr.foldl
    (fun acc p =>
      if tracr_n_from = p.1.label then (some p.1, acc.2)
      else if tracr_n_to = p.1.label then (acc.1, some p.1)
      else acc)
    (none, none)

/-- Dictionary lookup `hl_ll_corr[node]` (keys are unique in a Python
dict, so the first entry with an equal key is the entry). -/
def corrLookup (corr : Corr) (n : HLNode) : List LLNode :=
  match corr.find? (fun p => p.1 = n) with
  | some p => p.2
  | none => []

/-- Embeds `make_edge_corr`: per edge, resolve both endpoints by label;
skip the edge when either endpoint is unresolved; otherwise emit one
`EdgeCorr` per pair in the cross-product of the two endpoints' low-level
node sets, in nested-loop order. -/
def make_edge_corr (tracr_edges : List (String × String)) (hl_ll_corr : Corr) : List EdgeCorr :=
  tracr_edges.flatMap (fun tracr_edge =>
    match find_endpoints tracr_edge.1 tracr_edge.2 hl_ll_corr with
    | (some hl_node_from, some hl_node_to) =>
      (corrLookup hl_ll_corr hl_node_from).flatMap (fun ll_from =>
        (corrLookup hl_ll_corr hl_node_to).map (fun ll_to =>
          { hookpoint_from := ll_from.name
            index_from := ll_from.index
            hookpoint_to := ll_to.name
            index_to := ll_to.index }))
    | _ => [])

/-! ### Correspondence persistence (`save`/`load`, correspondence.py
lines 114-119)

The source pickles the correspondence dict and unpickles it
(`pickle.dump` / `pickle.load` from the Python standard library, outside
this repository).  Modelled from the spec: pickling these value types
(strings, ints, the closed index variant, sets and dicts keyed by them)
is a faithful injective serialization, so it is embedded as a concrete
token serializer with a matching parser. -/

/-- Serialization token. -/
inductive STok
  | sTok (s : String)
  | nTok (n : ℕ)
  | iTok (z : ℤ)
deriving DecidableEq

/-- Encodes a `TorchIdx`. -/
def encodeTorchIdx : TorchIdx → List STok
  | .ixNone => [.nTok 0]
  | .ixHead none => [.nTok 1]
  | .ixHead (some h) => [.nTok 2, .iTok h]

/-- Parses a `TorchIdx`, returning the remainder of the stream. -/
def decodeTorchIdx : List STok → Option (TorchIdx × List STok)
  | .nTok 0 :: rest => some (.ixNone, rest)
  | .nTok 1 :: rest => some (.ixHead none, rest)
  | .nTok 2 :: .iTok h :: rest => some (.ixHead (some h), rest)
  | _ => none

/-- Encodes an optional string. -/
def encodeOptStr : Option String → List STok
  | none => [.nTok 0]
  | some s => [.nTok 1, .sTok s]

/-- Parses an optional string. -/
def decodeOptStr : List STok → Option (Option String × List STok)
  | .nTok 0 :: rest => some (none, rest)
  | .nTok 1 :: .sTok s :: rest => some (some s, rest)
  | _ => none

/-- Encodes an optional `TorchIdx`. -/
def encodeOptIdx : Option TorchIdx → List STok
  | none => [.nTok 0]
  | some t => .nTok 1 :: encodeTorchIdx t

/-- Parses an optional `TorchIdx`. -/
def decodeOptIdx : List STok → Option (Option TorchIdx × List STok)
  | .nTok 0 :: rest => some (none, rest)
  | .nTok 1 :: rest => (decodeTorchIdx rest).map (fun p => (some p.1, p.2))
  | _ => none

/-- Encodes an `HLNode`. -/
def encodeHLNode (n : HLNode) : List STok :=
  .sTok n.name :: .sTok n.label :: .nTok n.num_classes :: encodeOptIdx n.index

/-- Parses an `HLNode`. -/
def decodeHLNode : List STok → Option (HLNode × List STok)
  | .sTok name :: .sTok label :: .nTok nc :: rest =>
    (decodeOptIdx rest).map (fun p => (⟨name, label, nc, p.1⟩, p.2))
  | _ => none

/-- Encodes an `LLNode`. -/
def encodeLLNode (l : LLNode) : List STok :=
  .sTok l.name :: (encodeTorchIdx l.index ++ encodeOptStr l.subm)

/-- Parses an `LLNode`. -/
def decodeLLNode : List STok → Option (LLNode × List STok)
  | .sTok name :: rest => do
    let (i, rest) ← decodeTorchIdx rest
    let (sm, rest) ← decodeOptStr rest
    return (⟨name, i, sm⟩, rest)
  | _ => none

/-- Encodes one correspondence entry: the key, then the length-prefixed
list of low-level nodes. -/
def encodeEntry (p : HLNode × List LLNode) : List STok :=
  encodeHLNode p.1 ++ (.nTok p.2.length :: p.2.flatMap encodeLLNode)

/-- Parses `count` low-level nodes. -/
def decodeLLNodes : ℕ → List STok → Option (List LLNode × List STok)
  | 0, rest => some ([], rest)
  | c + 1, rest => do
    let (l, rest) ← decodeLLNode rest
    let (ls, rest) ← decodeLLNodes c rest
    return (l :: ls, rest)

/-- Parses `count` correspondence entries. -/
def decodeEntries : ℕ → List STok → Option (Corr × List STok)
  | 0, rest => some ([], rest)
  | c + 1, rest => do
    let (n, rest) ← decodeHLNode rest
    match rest with
    | .nTok k :: rest => do
      let (ls, rest) ← decodeLLNodes k rest
      let (es, rest) ← decodeEntries c rest
      return ((n, ls) :: es, rest)
    | _ => none

/-- Models `TracrCorrespondence.save`: serialize the whole mapping. -/
def corr_save (c : Corr) : List STok :=
  .nTok c.length :: c.flatMap encodeEntry

/-- Models `TracrCorrespondence.load`: parse the serialized stream back
into a correspondence (`none` models an unreadable file). -/
def corr_load (toks : List STok) : Option Corr :=
  match toks with
  | .nTok c :: rest =>
    match decodeEntries c rest with
    | some (entries, []) => some entries
    | _ => none
  | _ => none

/-- Equality of correspondences in the sense of Python `dict` equality
with `set` values: same key set, and for each key set-equal values
(membership-wise, insertion order irrelevant). -/
def corrEquiv (a b : Corr) : Prop :=
  (∀ n : HLNode, (∃ v, (n, v) ∈ a) ↔ (∃ v, (n, v) ∈ b)) ∧
  (∀ n va vb, (n, va) ∈ a → (n, vb) ∈ b → ∀ x : LLNode, x ∈ va ↔ x ∈ vb)

/-! ### The unique-data selector (`get_unique_data`, dataset.py
lines 119-153)

Inputs are token sequences (`List ℕ`), outputs opaque encoded values
(`ℕ`); the generator argument stands for `case.get_clean_data(count=n)`
which returns `n` input/output pairs.  Deduplication keys each row by its
exact string form, as `np.unique([", ".join(str(i)) for i in inputs])`
does; `np.unique` enumerates the distinct keys in sorted order and
`first_occurences` picks, for each distinct key, the first row position
carrying it — the same set of row positions our appearance-ordered scan
keeps (only the output order differs, which no claim depends on). -/

/-- Dedup key of an input row: its exact string form. -/
def rowKey (r : List ℕ) : String := toString r

/-- Positions of first occurrences: position `i` is kept iff its key does
not occur among the keys of earlier positions (the positions selected by
`first_occurences` in the source). -/
def uniqIdxs (keys : List String) : List ℕ :=
  (keys.enum.filter (fun p => !(decide (p.2 ∈ keys.take p.1)))).map (fun p => p.1)

/-- Fancy-indexing `l[idxs]` on a list (numpy array indexing by an index
array; every index used by the source is in range). -/
def selectIdxs {α : Type} (l : List α) (idxs : List ℕ) : List α :=
  idxs.filterMap (fun i => l.get? i)

/-- The deduplicated rows `test_inputs[first_occurences]` (paired with
their outputs) built from an oversample of `3 * max_len` rows. -/
def uniq_stage (max_len : ℕ) (gen : ℕ → List (List ℕ × ℕ)) : List (List ℕ × ℕ) :=
  let data := gen (3 * max_len)
  selectIdxs data (uniqIdxs (data.map (fun p => rowKey p.1)))

/-- Embeds `get_unique_data`: with a small input space return the whole
space; otherwise oversample `3 * max_len`, deduplicate keeping first
occurrences, and when still above `max_len` select `max_len` positions
without replacement (`np.random.choice(len, max_len, replace=False)`,
whose drawn index list is the `random_choice` argument). -/
def get_unique_data (total_len max_len : ℕ) (gen : ℕ → List (List ℕ × ℕ))
    (random_choice : List ℕ) : List (List ℕ × ℕ) :=
  if total_len < max_len then gen total_len
  else
    let uniq := uniq_stage max_len gen
    if max_len < uniq.length then selectIdxs uniq random_choice else uniq

/-- Example one-entry correspondence with two low-level nodes, used to
exercise the persistence round trip on a concrete value. -/
def exampleCorr : Corr :=
  [({ name := "n", label := "lab", num_classes := 2,
      index := some (TorchIdx.ixHead (some 1)) },
    [{ name := "hookA", index := TorchIdx.ixNone, subm := none },
     { name := "hookB", index := TorchIdx.ixHead (some 0), subm := some "sub" }])]

/-! ## Supporting lemmas -/

lemma torchMean_replicate_one {n : ℕ} (h : n ≠ 0) :
    torchMean (List.replicate n 1) = some 1 := by
  have hne : (List.replicate n (1 : ℚ)) ≠ [] := by
    simp [h]
  rw [torchMean, if_neg (by simpa using hne)]
  simp only [List.sum_replicate, List.length_replicate, nsmul_eq_mul, mul_one]
  rw [div_self (by exact_mod_cast h)]

lemma same_outputs_vec_self (l : List (List ℕ)) :
    same_outputs_vec l l = List.replicate l.length 1 := by
  induction l with
  | nil => rfl
  | cons h t ih =>
    simp [same_outputs_vec, List.replicate_succ] at ih ⊢
    exact ih

lemma accuracyMetric_self {l : List (List ℕ)} (h : l ≠ []) :
    accuracyMetric l l = some 1 := by
  rw [accuracyMetric, same_outputs_vec_self]
  exact torchMean_replicate_one (by simpa using h)

lemma torchMean_mem_unitInterval {xs : List ℚ} (hne : xs ≠ [])
    (hb : ∀ v ∈ xs, 0 ≤ v ∧ v ≤ 1) :
    ∃ r, torchMean xs = some r ∧ 0 ≤ r ∧ r ≤ 1 := by
  have hlpos : (0 : ℚ) < xs.length := by
    exact_mod_cast List.length_pos.mpr hne
  refine ⟨xs.sum / xs.length, ?_, ?_, ?_⟩
  · simp [torchMean, hne]
  · exact div_nonneg (List.sum_nonneg (fun v hv => (hb v hv).1)) (le_of_lt hlpos)
  · rw [div_le_one hlpos]
    have := List.sum_le_card_nsmul xs 1 (fun v hv => (hb v hv).2)
    simpa using this

lemma shape2_vAdd {a b : T1} (h : a.length = b.length) :
    (vAdd a b).length = a.length := by
  simp [vAdd, h]

lemma shape2_mAdd {a b : T2} (h : shape2 a = shape2 b) :
    shape2 (mAdd a b) = shape2 a := by
  induction a generalizing b with
  | nil => simp [mAdd, shape2]
  | cons ha ta ih =>
    cases b with
    | nil => simp [shape2] at h
    | cons hb tb =>
      simp only [shape2, List.map_cons, List.cons.injEq] at h
      simp only [mAdd, List.zipWith_cons_cons, shape2, List.map_cons]
      exact congrArg₂ List.cons (shape2_vAdd h.1) (ih (b := tb) h.2)

lemma shape2_foldl_mAdd {t : List T2} {h : T2} (hsh : ∀ m ∈ t, shape2 m = shape2 h) :
    shape2 (t.foldl mAdd h) = shape2 h := by
  induction t generalizing h with
  | nil => rfl
  | cons m rest ih =>
    have h1 : shape2 (mAdd h m) = shape2 h :=
      shape2_mAdd (hsh m (by simp)).symm
    have h2 : ∀ m' ∈ rest, shape2 m' = shape2 (mAdd h m) := by
      intro m' hm'
      rw [h1]
      exact hsh m' (by simp [hm'])
    simpa [List.foldl_cons, h1] using ih h2

lemma shape2_map_div {m : T2} {c : ℚ} :
    shape2 (m.map (fun r => r.map (fun v => v / c))) = shape2 m := by
  simp [shape2, Function.comp]

lemma shape2_meanDim0T3 {x : T3} (hne : x ≠ [])
    (hrect : ∀ m ∈ x, shape2 m = shape2 x.headI) :
    shape2 (meanDim0T3 x) = shape2 x.headI := by
  cases x with
  | nil => exact absurd rfl hne
  | cons h t =>
    simp only [meanDim0T3, List.headI] at hrect ⊢
    rw [shape2_map_div, shape2_foldl_mAdd]
    intro m hm
    exact hrect m (by simp [hm])

lemma shape3_cAdd {a b : T3} (h : shape3 a = shape3 b) :
    shape3 (cAdd a b) = shape3 a := by
  induction a generalizing b with
  | nil => simp [cAdd, shape3]
  | cons ha ta ih =>
    cases b with
    | nil => simp [shape3] at h
    | cons hb tb =>
      simp only [shape3, List.map_cons, List.cons.injEq] at h
      simp only [cAdd, List.zipWith_cons_cons, shape3, List.map_cons]
      exact congrArg₂ List.cons (shape2_mAdd h.1) (ih (b := tb) h.2)

lemma shape3_foldl_cAdd {t : List T3} {h : T3} (hsh : ∀ m ∈ t, shape3 m = shape3 h) :
    shape3 (t.foldl cAdd h) = shape3 h := by
  induction t generalizing h with
  | nil => rfl
  | cons m rest ih =>
    have h1 : shape3 (cAdd h m) = shape3 h :=
      shape3_cAdd (hsh m (by simp)).symm
    have h2 : ∀ m' ∈ rest, shape3 m' = shape3 (cAdd h m) := by
      intro m' hm'
      rw [h1]
      exact hsh m' (by simp [hm'])
    simpa [List.foldl_cons, h1] using ih h2

lemma shape3_meanDim0T4 {x : T4} (hne : x ≠ [])
    (hrect : ∀ m ∈ x, shape3 m = shape3 x.headI) :
    shape3 (meanDim0T4 x) = shape3 x.headI := by
  cases x with
  | nil => exact absurd rfl hne
  | cons h t =>
    simp only [meanDim0T4, List.headI] at hrect ⊢
    have : shape3 ((t.foldl cAdd h).map
        (fun m => m.map (fun r => r.map (fun v => v / ((t.length + 1 : ℕ) : ℚ))))) =
        shape3 (t.foldl cAdd h) := by
      simp [shape3, shape2, Function.comp]
    rw [this, shape3_foldl_cAdd]
    intro m hm
    exact hrect m (by simp [hm])

/-! ## Claim theorems -/

/-- C1: with identical base and hypothesis networks, the zero ablation at
the embedding hook (a full-tensor hook) and categorical outputs, the
evaluator returns accuracy exactly 1 (the two post-intervention arg-max
label sequences agree on every batch example at every position) and the
base and hypothesis model effects are exactly equal, for every input
batch whose forward pass is non-empty. -/
theorem c1_identical_networks_zero_ablation {I : Type} (net : Net I) (inputs : I)
    (embed_hook : String)
    (hbatch : net.runWithHook embed_hook
      (fun act => regular_intervention_hook_fn act
        (zerosLikeT3 (net.cleanCache embed_hook inputs)) none) inputs ≠ []) :
    (evaluate_iia_zero net net embed_hook inputs).accuracy = some 1 ∧
    (evaluate_iia_zero net net embed_hook inputs).base_intervened_labels =
      (evaluate_iia_zero net net embed_hook inputs).hypothesis_intervened_labels ∧
    (evaluate_iia_zero net net embed_hook inputs).base_model_effect =
      (evaluate_iia_zero net net embed_hook inputs).hypothesis_model_effect := by
  refine ⟨?_, rfl, rfl⟩
  show accuracyMetric
    (labelsOf (dropBos (net.runWithHook embed_hook
      (fun act => regular_intervention_hook_fn act
        (zerosLikeT3 (net.cleanCache embed_hook inputs)) none) inputs)))
    (labelsOf (dropBos (net.runWithHook embed_hook
      (fun act => regular_intervention_hook_fn act
        (zerosLikeT3 (net.cleanCache embed_hook inputs)) none) inputs))) = some 1
  apply accuracyMetric_self
  simpa [labelsOf, dropBos] using hbatch

/-- C1 witness: a concrete one-example network evaluated at the embedding
hook. -/
theorem c1_witness :
    (Net.mk (fun _ => [[[1, 0], [0, 1]]])
      (fun _ _ _ => [[[0, 1], [1, 0]]])
      (fun _ _ => [[[2, 2], [2, 2]]]) : Net Unit).runWithHook "hook_embed"
        (fun act => regular_intervention_hook_fn act
          (zerosLikeT3 ((Net.mk (fun _ => [[[1, 0], [0, 1]]])
            (fun _ _ _ => [[[0, 1], [1, 0]]])
            (fun _ _ => [[[2, 2], [2, 2]]]) : Net Unit).cleanCache "hook_embed" ())) none) () ≠ []
      ∧
    (evaluate_iia_zero
      (Net.mk (fun _ => [[[1, 0], [0, 1]]])
        (fun _ _ _ => [[[0, 1], [1, 0]]])
        (fun _ _ => [[[2, 2], [2, 2]]]) : Net Unit)
      (Net.mk (fun _ => [[[1, 0], [0, 1]]])
        (fun _ _ _ => [[[0, 1], [1, 0]]])
        (fun _ _ => [[[2, 2], [2, 2]]]) : Net Unit) "hook_embed" ()).accuracy = some 1 :=
  ⟨by decide, (c1_identical_networks_zero_ablation _ () "hook_embed" (by decide)).1⟩

/-- C9: the patch builder of `build_hook_fns` fails (with the error the
spec names `UnsupportedAblationType`) exactly when the requested ablation
type is outside {zero, mean, resample}; for the three supported types it
returns patching data without error. -/
theorem c9_unsupported_ablation_type (ablation_type : String)
    (base_clean hyp_clean base_corr hyp_corr : T3) :
    ((∃ e, build_hook_fns_patching_data ablation_type
        base_clean hyp_clean base_corr hyp_corr = .error e) ↔
      ablation_type ∉ (["zero", "mean", "resample"] : List String)) ∧
    (ablation_type ∈ (["zero", "mean", "resample"] : List String) →
      ∃ patches, build_hook_fns_patching_data ablation_type
        base_clean hyp_clean base_corr hyp_corr = .ok patches) := by
  constructor
  · constructor
    · rintro ⟨e, he⟩ hmem
      simp only [List.mem_cons, List.not_mem_nil, or_false] at hmem
      rcases hmem with h | h | h <;>
        simp [build_hook_fns_patching_data, h] at he
    · intro hmem
      simp only [List.mem_cons, List.not_mem_nil, or_false, not_or] at hmem
      refine ⟨.unsupportedAblationType ablation_type, ?_⟩
      simp [build_hook_fns_patching_data, hmem.1, hmem.2.1, hmem.2.2]
  · intro hmem
    simp only [List.mem_cons, List.not_mem_nil, or_false] at hmem
    rcases hmem with h | h | h <;> subst h
    · exact ⟨(zerosLikeT3 base_clean, zerosLikeT3 hyp_clean),
        by simp [build_hook_fns_patching_data]⟩
    · exact ⟨(meanAblationT3 base_clean, meanAblationT3 hyp_clean),
        by simp [build_hook_fns_patching_data]⟩
    · exact ⟨(base_corr, hyp_corr), by simp [build_hook_fns_patching_data]⟩

/-- C9 witness: the zero type succeeds, a typo fails. -/
theorem c9_witness :
    ("zero" ∈ (["zero", "mean", "resample"] : List String) ∧
      ∃ patches, build_hook_fns_patching_data "zero" [] [] [] [] = .ok patches) ∧
    ("zeroo" ∉ (["zero", "mean", "resample"] : List String) ∧
      ∃ e, build_hook_fns_patching_data "zeroo" [] [] [] [] = .error e) :=
  ⟨⟨by decide, (c9_unsupported_ablation_type "zero" [] [] [] []).2 (by decide)⟩,
   ⟨by decide, (c9_unsupported_ablation_type "zeroo" [] [] [] []).1.mpr (by decide)⟩⟩

/-- C4: for a rectangular non-empty clean-cache activation, the mean
ablation replacement value is the batch-mean broadcast back to the batch
size, has exactly the shape of the original activation, and holds an
identical value at every batch index — for rank-3 hooks and rank-4 hooks
(the two branches of `build_hook_fns`'s mean case). -/
theorem c4_mean_ablation_shape_invariance :
    (∀ x : T3, x ≠ [] → (∀ m ∈ x, shape2 m = shape2 x.headI) →
      meanAblationT3 x = List.replicate x.length (meanDim0T3 x) ∧
      shape3 (meanAblationT3 x) = shape3 x ∧
      ∀ a ∈ meanAblationT3 x, ∀ b ∈ meanAblationT3 x, a = b) ∧
    (∀ x : T4, x ≠ [] → (∀ m ∈ x, shape3 m = shape3 x.headI) →
      meanAblationT4 x = List.replicate x.length (meanDim0T4 x) ∧
      shape4 (meanAblationT4 x) = shape4 x ∧
      ∀ a ∈ meanAblationT4 x, ∀ b ∈ meanAblationT4 x, a = b) := by
  constructor
  · intro x hne hrect
    refine ⟨rfl, ?_, ?_⟩
    · have hl : shape3 (meanAblationT3 x) =
          List.replicate x.length (shape2 (meanDim0T3 x)) := by
        simp [shape3, meanAblationT3, List.map_replicate]
      have hr : shape3 x = List.replicate x.length (shape2 x.headI) := by
        refine List.eq_replicate.2 ⟨by simp [shape3], ?_⟩
        intro b hb
        rcases List.mem_map.1 hb with ⟨m, hm, rfl⟩
        exact hrect m hm
      rw [hl, hr, shape2_meanDim0T3 hne hrect]
    · intro a ha b hb
      rw [List.eq_of_mem_replicate ha, List.eq_of_mem_replicate hb]
  · intro x hne hrect
    refine ⟨rfl, ?_, ?_⟩
    · have hl : shape4 (meanAblationT4 x) =
          List.replicate x.length (shape3 (meanDim0T4 x)) := by
        simp [shape4, meanAblationT4, List.map_replicate]
      have hr : shape4 x = List.replicate x.length (shape3 x.headI) := by
        refine List.eq_replicate.2 ⟨by simp [shape4], ?_⟩
        intro b hb
        rcases List.mem_map.1 hb with ⟨m, hm, rfl⟩
        exact hrect m hm
      rw [hl, hr, shape3_meanDim0T4 hne hrect]
    · intro a ha b hb
      rw [List.eq_of_mem_replicate ha, List.eq_of_mem_replicate hb]

/-- C4 witness: a concrete two-example batch for each rank. -/
theorem c4_witness :
    (([[[1, 2]], [[3, 4]]] : T3) ≠ [] ∧
      shape3 (meanAblationT3 [[[1, 2]], [[3, 4]]]) = shape3 [[[1, 2]], [[3, 4]]]) ∧
    (([[[[1]]], [[[5]]]] : T4) ≠ [] ∧
      shape4 (meanAblationT4 [[[[1]]], [[[5]]]]) = shape4 [[[[1]]], [[[5]]]]) :=
  ⟨⟨by decide,
    (c4_mean_ablation_shape_invariance.1 [[[1, 2]], [[3, 4]]] (by decide) (by decide)).2.1⟩,
   ⟨by decide,
    (c4_mean_ablation_shape_invariance.2 [[[[1]]], [[[5]]]] (by decide) (by decide)).2.1⟩⟩

lemma decodeAssignment_length (i k m : ℕ) : (decodeAssignment i k m).length = k := by
  simp [decodeAssignment]

lemma decodeAssignment_lt {m : ℕ} (hm : 0 < m) (i k : ℕ) :
    ∀ d ∈ decodeAssignment i k m, d < m := by
  intro d hd
  rcases List.mem_map.1 hd with ⟨j, _, rfl⟩
  exact Nat.mod_lt _ hm

lemma div_pow_mod_eq_mod_pow_div {i m e k : ℕ} (hek : e < k) :
    i / m ^ e % m = i % m ^ k / m ^ e % m := by
  have h1 : i / m ^ e % m = i % (m ^ e * m) / m ^ e :=
    (Nat.mod_mul_right_div_self i (m ^ e) m).symm
  have h2 : i % m ^ k / m ^ e % m = i % m ^ k % (m ^ e * m) / m ^ e :=
    (Nat.mod_mul_right_div_self (i % m ^ k) (m ^ e) m).symm
  rw [h1, h2, ← pow_succ, Nat.mod_mod_of_dvd i (pow_dvd_pow m hek)]

lemma decodeAssignment_succ (i k m : ℕ) :
    decodeAssignment i (k + 1) m = (i / m ^ k % m) :: decodeAssignment (i % m ^ k) k m := by
  have htail : List.map ((fun j => i / m ^ (k - j) % m) ∘ Nat.succ) (List.range k) =
      decodeAssignment (i % m ^ k) k m := by
    rw [decodeAssignment]
    apply List.map_congr_left
    intro j hj
    have hjk : j < k := List.mem_range.1 hj
    simp only [Function.comp_apply, Nat.succ_eq_add_one]
    have he : k - (j + 1) = k - 1 - j := by omega
    rw [he]
    exact div_pow_mod_eq_mod_pow_div (by omega)
  calc decodeAssignment i (k + 1) m
      = (List.range (k + 1)).map (fun j => i / m ^ (k - j) % m) := by
        rw [decodeAssignment]
        apply List.map_congr_left
        intro j hj
        have he : k + 1 - 1 - j = k - j := by omega
        rw [he]
    _ = (i / m ^ (k - 0) % m) ::
          List.map ((fun j => i / m ^ (k - j) % m) ∘ Nat.succ) (List.range k) := by
        rw [List.range_succ_eq_map, List.map_cons, List.map_map]
    _ = (i / m ^ k % m) :: decodeAssignment (i % m ^ k) k m := by
        rw [htail]
        norm_num

lemma fromDigits_foldl_shift (m : ℕ) (ds : List ℕ) (a : ℕ) :
    ds.foldl (fun acc d => acc * m + d) a =
      a * m ^ ds.length + ds.foldl (fun acc d => acc * m + d) 0 := by
  induction ds generalizing a with
  | nil => simp
  | cons d t ih =>
    simp only [List.foldl_cons, List.length_cons, Nat.zero_mul, Nat.zero_add]
    rw [ih (a * m + d), ih d]
    ring

lemma fromDigits_cons (m d : ℕ) (ds : List ℕ) :
    fromDigits m (d :: ds) = d * m ^ ds.length + fromDigits m ds := by
  rw [fromDigits, List.foldl_cons]
  simpa [fromDigits] using fromDigits_foldl_shift m ds d

lemma fromDigits_decodeAssignment {m : ℕ} (hm : 0 < m) :
    ∀ (k i : ℕ), i < m ^ k → fromDigits m (decodeAssignment i k m) = i := by
  intro k
  induction k with
  | zero =>
    intro i hi
    simp only [pow_zero] at hi
    have hz : i = 0 := by omega
    subst hz
    rfl
  | succ k ih =>
    intro i hi
    have hpk : 0 < m ^ k := Nat.pos_pow_of_pos k hm
    rw [decodeAssignment_succ, fromDigits_cons, decodeAssignment_length,
      ih (i % m ^ k) (Nat.mod_lt _ hpk)]
    have hdiv : i / m ^ k < m := by
      rw [Nat.div_lt_iff_lt_mul hpk, ← pow_succ']
      exact hi
    rw [Nat.mod_eq_of_lt hdiv, Nat.mul_comm (i / m ^ k) (m ^ k)]
    exact Nat.div_add_mod i (m ^ k)

lemma decodeAssignment_fromDigits {m : ℕ} (hm : 0 < m) :
    ∀ ds : List ℕ, (∀ d ∈ ds, d < m) →
      fromDigits m ds < m ^ ds.length ∧
      decodeAssignment (fromDigits m ds) ds.length m = ds := by
  intro ds
  induction ds with
  | nil =>
    intro _
    constructor
    · simpa [fromDigits] using hm
    · rfl
  | cons d t ih =>
    intro hb
    have hd : d < m := hb d (by simp)
    obtain ⟨ihlt, ihdec⟩ := ih (fun x hx => hb x (by simp [hx]))
    have hpL : 0 < m ^ t.length := Nat.pos_pow_of_pos _ hm
    have hv : fromDigits m (d :: t) = fromDigits m t + d * m ^ t.length := by
      rw [fromDigits_cons]; ring
    constructor
    · rw [fromDigits_cons]
      calc d * m ^ t.length + fromDigits m t
          < d * m ^ t.length + m ^ t.length := by omega
        _ = (d + 1) * m ^ t.length := by ring
        _ ≤ m * m ^ t.length := Nat.mul_le_mul_right _ (by omega)
        _ = m ^ (t.length + 1) := by ring
    · simp only [List.length_cons]
      rw [decodeAssignment_succ, hv]
      have hdiv : (fromDigits m t + d * m ^ t.length) / m ^ t.length = d := by
        rw [Nat.add_mul_div_right _ _ hpL, Nat.div_eq_of_lt ihlt, Nat.zero_add]
      have hmod : (fromDigits m t + d * m ^ t.length) % m ^ t.length = fromDigits m t := by
        rw [Nat.add_mul_mod_self_right, Nat.mod_eq_of_lt ihlt]
      rw [hdiv, hmod, Nat.mod_eq_of_lt hd, ihdec]

lemma getD_inj_of_nodup {options : List ℕ} (hnd : options.Nodup) {d1 d2 : ℕ}
    (h1 : d1 < options.length) (h2 : d2 < options.length)
    (he : options.getD d1 0 = options.getD d2 0) : d1 = d2 := by
  rw [List.getD_eq_getElem _ _ h1, List.getD_eq_getElem _ _ h2] at he
  exact (List.Nodup.getElem_inj_iff hnd).1 he

lemma map_getD_inj {options : List ℕ} (hnd : options.Nodup) :
    ∀ ds1 ds2 : List ℕ, (∀ d ∈ ds1, d < options.length) → (∀ d ∈ ds2, d < options.length) →
      ds1.map (fun d => options.getD d 0) = ds2.map (fun d => options.getD d 0) → ds1 = ds2 := by
  intro ds1
  induction ds1 with
  | nil =>
    intro ds2 _ _ he
    cases ds2 with
    | nil => rfl
    | cons _ _ => simp at he
  | cons d t ih =>
    intro ds2 hb1 hb2 he
    cases ds2 with
    | nil => simp at he
    | cons d2 t2 =>
      simp only [List.map_cons, List.cons.injEq] at he
      have hd := getD_inj_of_nodup hnd (hb1 d (by simp)) (hb2 d2 (by simp)) he.1
      have ht := ih t2 (fun x hx => hb1 x (by simp [hx])) (fun x hx => hb2 x (by simp [hx])) he.2
      rw [hd, ht]

/-- C2: the combinatorial sampler yields pairwise-distinct joint
assignments; with budget at least `m^k` it enumerates all `m^k`
assignments exactly once (every valid assignment is reached), otherwise
it yields exactly `budget` distinct assignments (the `random.sample`
draw is without replacement, hypothesized via its contract); the
integer-to-assignment map is the base-`m`, `k`-digit decoding
left-padded with digit 0 (the first ablation type), an exact inverse of
re-encoding on `[0, m^k)`.  The `m ≤ 10` bound scopes the
`np.base_repr`/`int(digit)` decoding to decimal digit characters, which
`len(options)` (a small fixed enum) always satisfies. -/
theorem c2_sampler_bijection (k m budget : ℕ) (sample : List ℕ) (options : List ℕ)
    (hm : 2 ≤ m) (hm10 : m ≤ 10)
    (hopt_len : options.length = m) (hopt_nd : options.Nodup)
    (hs_len : budget < m ^ k → sample.length = budget)
    (hs_nd : sample.Nodup)
    (hs_mem : ∀ i ∈ sample, i < m ^ k) :
    (get_interventions k m budget sample options).Nodup ∧
    (m ^ k ≤ budget →
      (get_interventions k m budget sample options).length = m ^ k ∧
      ∀ ds : List ℕ, ds.length = k → (∀ d ∈ ds, d < m) →
        ds.map (fun d => options.getD d 0) ∈ get_interventions k m budget sample options) ∧
    (budget < m ^ k → (get_interventions k m budget sample options).length = budget) ∧
    (∀ i, i < m ^ k →
      (decodeAssignment i k m).length = k ∧
      (∀ d ∈ decodeAssignment i k m, d < m) ∧
      fromDigits m (decodeAssignment i k m) = i) := by
  have hm0 : 0 < m := by omega
  have hinj : ∀ i, i < m ^ k → ∀ j, j < m ^ k →
      (decodeAssignment i k m).map (fun d => options.getD d 0) =
        (decodeAssignment j k m).map (fun d => options.getD d 0) → i = j := by
    intro i hi j hj he
    have hdig := map_getD_inj hopt_nd (decodeAssignment i k m) (decodeAssignment j k m)
      (fun d hd => hopt_len ▸ decodeAssignment_lt hm0 i k d hd)
      (fun d hd => hopt_len ▸ decodeAssignment_lt hm0 j k d hd) he
    have h1 := fromDigits_decodeAssignment hm0 k i hi
    have h2 := fromDigits_decodeAssignment hm0 k j hj
    rw [← h1, ← h2, hdig]
  refine ⟨?_, ?_, ?_, ?_⟩
  · rw [get_interventions, get_intervention_indices]
    by_cases hb : budget < m ^ k
    · rw [if_pos hb]
      exact List.Nodup.map_on
        (fun i hi j hj he => hinj i (hs_mem i hi) j (hs_mem j hj) he) hs_nd
    · rw [if_neg hb]
      exact List.Nodup.map_on
        (fun i hi j hj he => hinj i (List.mem_range.1 hi) j (List.mem_range.1 hj) he)
        (List.nodup_range _)
  · intro hb
    have hnb : ¬ budget < m ^ k := by omega
    constructor
    · rw [get_interventions, get_intervention_indices, if_neg hnb]
      simp
    · intro ds hlen hbound
      rw [get_interventions, get_intervention_indices, if_neg hnb]
      obtain ⟨hflt, hfdec⟩ := decodeAssignment_fromDigits hm0 ds hbound
      subst hlen
      exact List.mem_map.2 ⟨fromDigits m ds, List.mem_range.2 hflt, by rw [hfdec]⟩
  · intro hb
    rw [get_interventions, get_intervention_indices, if_pos hb]
    simp [hs_len hb]
  · intro i hi
    exact ⟨decodeAssignment_length i k m, decodeAssignment_lt hm0 i k,
      fromDigits_decodeAssignment hm0 k i hi⟩

/-- C2 witness: `k = 2` locations, `m = 3` ablation types, a budget of 4
out of 9 with a concrete without-replacement draw. -/
theorem c2_witness :
    ((2 : ℕ) ≤ 3 ∧ (3 : ℕ) ≤ 10 ∧ ([10, 20, 30] : List ℕ).length = 3 ∧
      ([10, 20, 30] : List ℕ).Nodup ∧
      ((4 : ℕ) < 3 ^ 2 → ([0, 5, 8, 2] : List ℕ).length = 4) ∧
      ([0, 5, 8, 2] : List ℕ).Nodup ∧ (∀ i ∈ ([0, 5, 8, 2] : List ℕ), i < 3 ^ 2)) ∧
    (get_interventions 2 3 4 [0, 5, 8, 2] [10, 20, 30]).Nodup ∧
    (get_interventions 2 3 4 [0, 5, 8, 2] [10, 20, 30]).length = 4 :=
  ⟨⟨by decide, by decide, by decide, by decide, by decide, by decide, by decide⟩,
    (c2_sampler_bijection 2 3 4 [0, 5, 8, 2] [10, 20, 30] (by decide) (by decide) (by decide)
      (by decide) (by decide) (by decide) (by decide)).1,
    (c2_sampler_bijection 2 3 4 [0, 5, 8, 2] [10, 20, 30] (by decide) (by decide) (by decide)
      (by decide) (by decide) (by decide) (by decide)).2.2.1 (by decide)⟩

/-- C8: the address model (the `hook_name`/`idx` pair evaluated per
location by `make_hl_ll_corr`) maps an attn location with a concrete head
to the index `Ix[:, :, head, :]`; an mlp location (unit `None`) to the
no-restriction index `Ix[[None]]`; an attn location with unspecified unit
to an index restricting no head; and any component kind other than attn
and mlp fails with the error the spec names `InvalidComponentKind`,
whatever the unit and style. -/
theorem c8_structured_index :
    (∀ (layer : ℕ) (h : ℤ), ∃ hn,
      address_model layer "attn" (.unitHead h) "tl" = .ok (hn, .ixHead (some h)) ∧
      headRestriction (.ixHead (some h)) = some h) ∧
    (∀ layer : ℕ, ∃ hn,
      address_model layer "mlp" .unitNone "tl" = .ok (hn, .ixNone) ∧
      headRestriction .ixNone = none) ∧
    (∀ layer : ℕ, ∃ hn i,
      address_model layer "attn" .unitNone "tl" = .ok (hn, i) ∧ headRestriction i = none) ∧
    (∀ (layer : ℕ) (kind : String) (unit : HLUnit) (style : String),
      kind ≠ "attn" → kind ≠ "mlp" →
      address_model layer kind unit style = .error (.invalidComponentKind kind)) := by
  refine ⟨?_, ?_, ?_, ?_⟩
  · intro layer h
    exact ⟨"blocks." ++ toString layer ++ "." ++ "attn" ++ "." ++ "hook_result",
      by rfl, rfl⟩
  · intro layer
    exact ⟨"blocks." ++ toString layer ++ "." ++ "mlp" ++ "." ++ "hook_post",
      by rfl, rfl⟩
  · intro layer
    exact ⟨"blocks." ++ toString layer ++ "." ++ "attn" ++ "." ++ "hook_result", .ixHead none,
      by rfl, rfl⟩
  · intro layer kind unit style h1 h2
    simp only [address_model, hook_name, h1, h2, ne_eq, not_false_iff, and_self, if_true]
    rfl

/-- C8 witness: concrete locations, including an invalid component kind. -/
theorem c8_witness :
    (∃ hn, address_model 0 "attn" (.unitHead 2) "tl" = .ok (hn, .ixHead (some 2)) ∧
      headRestriction (.ixHead (some 2)) = some 2) ∧
    (("embed" : String) ≠ "attn" ∧ ("embed" : String) ≠ "mlp" ∧
      address_model 1 "embed" .unitNone "tl" = .error (.invalidComponentKind "embed")) :=
  ⟨(c8_structured_index.1 0 2),
   ⟨by decide, by decide, c8_structured_index.2.2.2 1 "embed" .unitNone "tl"
     (by decide) (by decide)⟩⟩

lemma find_endpoints_fst (u v : String) (corr : Corr) :
    ∀ acc : Option HLNode × Option HLNode,
      (corr.foldl
        (fun acc p =>
          if u = p.1.label then (some p.1, acc.2)
          else if v = p.1.label then (acc.1, some p.1)
          else acc) acc).1 =
      corr.foldl (fun a p => if u = p.1.label then some p.1 else a) acc.1 := by
  induction corr with
  | nil => intro acc; rfl
  | cons q t ih =>
    intro acc
    simp only [List.foldl_cons]
    by_cases hq : u = q.1.label
    · rw [if_pos hq, if_pos hq, ih]
    · rw [if_neg hq, if_neg hq]
      by_cases hv : v = q.1.label
      · rw [if_pos hv, ih]
      · rw [if_neg hv, ih]

lemma find_endpoints_snd (u v : String) (corr : Corr) :
    ∀ acc : Option HLNode × Option HLNode,
      (corr.foldl
        (fun acc p =>
          if u = p.1.label then (some p.1, acc.2)
          else if v = p.1.label then (acc.1, some p.1)
          else acc) acc).2 =
      corr.foldl
        (fun a p =>
          if u = p.1.label then a
          else if v = p.1.label then some p.1
          else a) acc.2 := by
  induction corr with
  | nil => intro acc; rfl
  | cons q t ih =>
    intro acc
    simp only [List.foldl_cons]
    by_cases hq : u = q.1.label
    · rw [if_pos hq, if_pos hq, ih]
    · rw [if_neg hq, if_neg hq]
      by_cases hv : v = q.1.label
      · rw [if_pos hv, if_pos hv, ih]
      · rw [if_neg hv, if_neg hv, ih]

lemma foldl_overwrite_no_match {u : String} {corr : Corr}
    (h : ∀ p ∈ corr, ¬ u = p.1.label) :
    ∀ a : Option HLNode,
      corr.foldl (fun a p => if u = p.1.label then some p.1 else a) a = a := by
  induction corr with
  | nil => intro a; rfl
  | cons q t ih =>
    intro a
    simp only [List.foldl_cons, if_neg (h q (by simp))]
    exact ih (fun p hp => h p (by simp [hp])) a

lemma foldl_snd_no_match {u v : String} {corr : Corr}
    (h : ∀ p ∈ corr, ¬ v = p.1.label) :
    ∀ a : Option HLNode,
      corr.foldl
        (fun a p =>
          if u = p.1.label then a
          else if v = p.1.label then some p.1
          else a) a = a := by
  induction corr with
  | nil => intro a; rfl
  | cons q t ih =>
    intro a
    simp only [List.foldl_cons]
    have step : (if u = q.1.label then a
        else if v = q.1.label then some q.1 else a) = a := by
      by_cases hq : u = q.1.label
      · rw [if_pos hq]
      · rw [if_neg hq, if_neg (h q (by simp))]
    rw [step]
    exact ih (fun p hp => h p (by simp [hp])) a

lemma foldl_overwrite_of_filter_singleton {u : String} {e : HLNode × List LLNode} :
    ∀ corr : Corr, corr.filter (fun p => u = p.1.label) = [e] →
      ∀ a : Option HLNode,
        corr.foldl (fun a p => if u = p.1.label then some p.1 else a) a = some e.1 := by
  intro corr
  induction corr with
  | nil => intro hf; simp at hf
  | cons q t ih =>
    intro hf a
    simp only [List.foldl_cons]
    by_cases hq : u = q.1.label
    · rw [List.filter_cons_of_pos (by simpa using hq)] at hf
      simp only [List.cons.injEq] at hf
      obtain ⟨rfl, hft⟩ := hf
      rw [if_pos hq]
      exact foldl_overwrite_no_match
        (fun p hp hl => by
          have : p ∈ t.filter (fun p => u = p.1.label) :=
            List.mem_filter.2 ⟨hp, by simpa using hl⟩
          rw [hft] at this
          simp at this) _
    · rw [List.filter_cons_of_neg (by simpa using hq)] at hf
      rw [if_neg hq]
      exact ih hf a

lemma filter_singleton_label {u : String} {corr : Corr} {e : HLNode × List LLNode}
    (hf : corr.filter (fun p => u = p.1.label) = [e]) : u = e.1.label := by
  have : e ∈ corr.filter (fun p => u = p.1.label) := by rw [hf]; simp
  simpa using (List.mem_filter.1 this).2

lemma corrLookup_of_filter_singleton {u : String} {e : HLNode × List LLNode} :
    ∀ corr : Corr, corr.filter (fun p => u = p.1.label) = [e] →
      corrLookup corr e.1 = e.2 := by
  intro corr
  induction corr with
  | nil => intro hf; simp at hf
  | cons q t ih =>
    intro hf
    by_cases hq : u = q.1.label
    · rw [List.filter_cons_of_pos (by simpa using hq)] at hf
      simp only [List.cons.injEq] at hf
      obtain ⟨rfl, _⟩ := hf
      simp [corrLookup, List.find?_cons_of_pos]
    · rw [List.filter_cons_of_neg (by simpa using hq)] at hf
      have hne : ¬ q.1 = e.1 := by
        intro heq
        exact hq (heq ▸ filter_singleton_label hf)
      rw [corrLookup, List.find?_cons_of_neg _ (by simpa using hne)]
      exact ih hf

lemma foldl_snd_of_filter_singleton {u v : String} (huv : u ≠ v) {e : HLNode × List LLNode} :
    ∀ corr : Corr, corr.filter (fun p => v = p.1.label) = [e] →
      ∀ a : Option HLNode,
        corr.foldl
          (fun a p =>
            if u = p.1.label then a
            else if v = p.1.label then some p.1
            else a) a = some e.1 := by
  intro corr
  induction corr with
  | nil => intro hf; simp at hf
  | cons q t ih =>
    intro hf a
    simp only [List.foldl_cons]
    by_cases hv : v = q.1.label
    · rw [List.filter_cons_of_pos (by simpa using hv)] at hf
      simp only [List.cons.injEq] at hf
      obtain ⟨rfl, hft⟩ := hf
      have hu : ¬ u = q.1.label := fun hu => huv (hu.trans hv.symm)
      rw [if_neg hu, if_pos hv]
      exact foldl_snd_no_match
        (fun p hp hl => by
          have : p ∈ t.filter (fun p => v = p.1.label) :=
            List.mem_filter.2 ⟨hp, by simpa using hl⟩
          rw [hft] at this
          simp at this) _
    · rw [List.filter_cons_of_neg (by simpa using hv)] at hf
      have step : (if u = q.1.label then a
          else if v = q.1.label then some q.1 else a) = a := by
        by_cases hq : u = q.1.label
        · rw [if_pos hq]
        · rw [if_neg hq, if_neg hv]
      rw [step]
      exact ih hf a

lemma cross_product_length (St : List LLNode) (g : LLNode → LLNode → EdgeCorr) :
    ∀ Sf : List LLNode,
      (Sf.flatMap (fun a => St.map (g a))).length = Sf.length * St.length := by
  intro Sf
  induction Sf with
  | nil => simp
  | cons a t ih =>
    simp only [List.flatMap_cons, List.length_append, List.length_map, List.length_cons, ih]
    ring

/-- C3 (amended): edge endpoints are resolved by comparing the edge's
labels against HLNode labels in one pass whose from-check precedes the
to-check (`elif`); if either endpoint label matches no key the edge is
skipped silently; for an edge with distinct endpoint labels each matched
by exactly one HLNode key, exactly one EdgeCorr is emitted per pair in
the cross-product of the two endpoints' LLNode sets.  (A self-edge
`(u, u)` is always skipped, even when the label matches — see the
counterexample — because the `elif` never lets the same scan position
resolve the to-endpoint.) -/
theorem c3_edge_cross_product :
    (∀ (u v : String) (corr : Corr),
      ((∀ p ∈ corr, ¬ u = p.1.label) ∨ (∀ p ∈ corr, ¬ v = p.1.label)) →
      make_edge_corr [(u, v)] corr = []) ∧
    (∀ (u v : String) (corr : Corr) (nf nt : HLNode) (Sf St : List LLNode),
      u ≠ v →
      corr.filter (fun p => u = p.1.label) = [(nf, Sf)] →
      corr.filter (fun p => v = p.1.label) = [(nt, St)] →
      make_edge_corr [(u, v)] corr =
        Sf.flatMap (fun a => St.map (fun b =>
          { hookpoint_from := a.name, index_from := a.index,
            hookpoint_to := b.name, index_to := b.index })) ∧
      (make_edge_corr [(u, v)] corr).length = Sf.length * St.length) := by
  constructor
  · intro u v corr hskip
    rw [make_edge_corr, List.flatMap_cons, List.flatMap_nil, List.append_nil]
    rcases hskip with hu | hv
    · have h1 : (find_endpoints u v corr).1 = none := by
        rw [find_endpoints, find_endpoints_fst, foldl_overwrite_no_match hu]
      rcases hfe : find_endpoints u v corr with ⟨f, t⟩
      rw [hfe] at h1
      simp only at h1
      subst h1
      rfl
    · have h2 : (find_endpoints u v corr).2 = none := by
        rw [find_endpoints, find_endpoints_snd, foldl_snd_no_match hv]
      rcases hfe : find_endpoints u v corr with ⟨f, t⟩
      rw [hfe] at h2
      simp only at h2
      subst h2
      cases f <;> rfl
  · intro u v corr nf nt Sf St huv hfu hfv
    have h1 : (find_endpoints u v corr).1 = some nf := by
      rw [find_endpoints, find_endpoints_fst]
      exact foldl_overwrite_of_filter_singleton corr hfu none
    have h2 : (find_endpoints u v corr).2 = some nt := by
      rw [find_endpoints, find_endpoints_snd]
      exact foldl_snd_of_filter_singleton huv corr hfv none
    have hfe : find_endpoints u v corr = (some nf, some nt) := by
      rcases hfes : find_endpoints u v corr with ⟨f, t⟩
      rw [hfes] at h1 h2
      simp only at h1 h2
      rw [h1, h2]
    have hlf : corrLookup corr nf = Sf :=
      corrLookup_of_filter_singleton (e := (nf, Sf)) corr hfu
    have hlt : corrLookup corr nt = St :=
      corrLookup_of_filter_singleton (e := (nt, St)) corr hfv
    have hmain : make_edge_corr [(u, v)] corr =
        Sf.flatMap (fun a => St.map (fun b =>
          { hookpoint_from := a.name, index_from := a.index,
            hookpoint_to := b.name, index_to := b.index })) := by
      rw [make_edge_corr, List.flatMap_cons, List.flatMap_nil, List.append_nil]
      simp only [hfe, hlf, hlt]
    exact ⟨hmain, by rw [hmain, cross_product_length]⟩

/-- C3 counterexample: a self-edge `("x", "x")` whose label does match an
HLNode key still yields no EdgeCorr, contradicting the claim that matched
endpoints always emit the cross-product (here `{A} × {A}` would be one
edge). -/
theorem c3_counterexample :
    (∃ p ∈ ([({ name := "n", label := "x", num_classes := 0, index := none },
        [{ name := "hookA", index := TorchIdx.ixNone, subm := none }])] : Corr),
      p.1.label = "x") ∧
    make_edge_corr [("x", "x")]
      [({ name := "n", label := "x", num_classes := 0, index := none },
        [{ name := "hookA", index := TorchIdx.ixNone, subm := none }])] = [] := by
  constructor
  · exact ⟨({ name := "n", label := "x", num_classes := 0, index := none },
      [{ name := "hookA", index := TorchIdx.ixNone, subm := none }]), by simp, rfl⟩
  · rfl

/-- C3 witness: the spec's instance — `u` maps to two low-level nodes,
`v` to one; the derived edges are exactly the two cross-product pairs. -/
theorem c3_witness :
    make_edge_corr [("u", "v")]
      [({ name := "nu", label := "u", num_classes := 0, index := none },
        [{ name := "A", index := TorchIdx.ixNone, subm := none },
         { name := "B", index := TorchIdx.ixHead (some 0), subm := none }]),
       ({ name := "nv", label := "v", num_classes := 0, index := none },
        [{ name := "C", index := TorchIdx.ixNone, subm := none }])] =
      [{ hookpoint_from := "A", index_from := TorchIdx.ixNone,
         hookpoint_to := "C", index_to := TorchIdx.ixNone },
       { hookpoint_from := "B", index_from := TorchIdx.ixHead (some 0),
         hookpoint_to := "C", index_to := TorchIdx.ixNone }] := by
  rw [(c3_edge_cross_product.2 "u" "v" _
    ({ name := "nu", label := "u", num_classes := 0, index := none })
    ({ name := "nv", label := "v", num_classes := 0, index := none })
    [{ name := "A", index := TorchIdx.ixNone, subm := none },
     { name := "B", index := TorchIdx.ixHead (some 0), subm := none }]
    [{ name := "C", index := TorchIdx.ixNone, subm := none }]
    (by decide) (by decide) (by decide)).1]
  rfl

lemma sum_map_exp_pos {xs : List ℝ} (h : xs ≠ []) : 0 < (xs.map Real.exp).sum := by
  cases xs with
  | nil => exact absurd rfl h
  | cons a t =>
    simp only [List.map_cons, List.sum_cons]
    have h1 : 0 < Real.exp a := Real.exp_pos a
    have h2 : 0 ≤ (t.map Real.exp).sum := by
      apply List.sum_nonneg
      intro x hx
      rcases List.mem_map.1 hx with ⟨y, _, rfl⟩
      exact (Real.exp_pos y).le
    linarith

lemma list_sum_map_div (l : List ℝ) (f : ℝ → ℝ) (c : ℝ) :
    (l.map (fun x => f x / c)).sum = (l.map f).sum / c := by
  induction l with
  | nil => simp
  | cons a t ih => simp [ih, add_div]

lemma sum_exp_log_softmax {xs : List ℝ} (h : xs ≠ []) :
    ((log_softmax xs).map Real.exp).sum = 1 := by
  have hS : 0 < (xs.map Real.exp).sum := sum_map_exp_pos h
  have hexp : (log_softmax xs).map Real.exp =
      xs.map (fun x => Real.exp x / (xs.map Real.exp).sum) := by
    rw [log_softmax, List.map_map]
    apply List.map_congr_left
    intro x _
    simp only [Function.comp_apply]
    rw [Real.exp_sub, Real.exp_log hS]
  rw [hexp, list_sum_map_div, div_self (ne_of_gt hS)]

lemma kl_term_ge (a b : ℝ) : Real.exp a - Real.exp b ≤ Real.exp a * (a - b) := by
  have h := Real.add_one_le_exp (b - a)
  have hpos : (0 : ℝ) < Real.exp a := Real.exp_pos a
  have hmul : (b - a + 1) * Real.exp a ≤ Real.exp (b - a) * Real.exp a :=
    mul_le_mul_of_nonneg_right h hpos.le
  rw [← Real.exp_add, sub_add_cancel] at hmul
  nlinarith [hmul]

lemma zip_sum_exp_split :
    ∀ (l1 l2 : List ℝ), l1.length = l2.length →
      ((l1.zip l2).map (fun p => Real.exp p.1 - Real.exp p.2)).sum =
        (l1.map Real.exp).sum - (l2.map Real.exp).sum := by
  intro l1
  induction l1 with
  | nil =>
    intro l2 hlen
    have : l2 = [] := List.eq_nil_of_length_eq_zero (by simpa using hlen.symm)
    subst this
    simp
  | cons a t ih =>
    intro l2 hlen
    cases l2 with
    | nil => simp at hlen
    | cons b t2 =>
      simp only [List.zip_cons_cons, List.map_cons, List.sum_cons]
      rw [ih t2 (by simpa using hlen)]
      ring

lemma kl_div_row_log_softmax_nonneg {x y : List ℝ} (hlen : x.length = y.length) :
    0 ≤ kl_div_row (log_softmax x) (log_softmax y) := by
  by_cases hx : x = []
  · subst hx
    have hy : y = [] := List.eq_nil_of_length_eq_zero (by simpa using hlen.symm)
    subst hy
    simp [kl_div_row, log_softmax]
  · have hy : y ≠ [] := by
      intro h
      subst h
      exact hx (List.eq_nil_of_length_eq_zero (by simpa using hlen))
    have hll : (log_softmax x).length = (log_softmax y).length := by
      simp [log_softmax, hlen]
    have hsum : (((log_softmax x).zip (log_softmax y)).map
          (fun p => Real.exp p.1 - Real.exp p.2)).sum ≤
        (((log_softmax x).zip (log_softmax y)).map
          (fun p => Real.exp p.1 * (p.1 - p.2))).sum :=
      List.sum_le_sum (fun p _ => kl_term_ge p.1 p.2)
    rw [zip_sum_exp_split _ _ hll, sum_exp_log_softmax hx, sum_exp_log_softmax hy] at hsum
    simpa [kl_div_row] using hsum

lemma same_outputs_vec_mem_unit {base_labels hypothesis_labels : List (List ℕ)} :
    ∀ v ∈ same_outputs_vec base_labels hypothesis_labels, 0 ≤ v ∧ v ≤ 1 := by
  intro v hv
  rcases List.mem_map.1 hv with ⟨p, _, rfl⟩
  split_ifs <;> norm_num

/-- C5 (amended): on a non-empty batch, accuracy lies in [0, 1]; the KL
divergence of the intervened log-softmax distributions (summed over a
shared vocabulary axis, averaged over a non-empty batch × position grid)
is ≥ 0; and the resample-only effective accuracy lies in [0, 1] whenever
the masked subset — the batch examples whose clean and corrupted
ground-truth outputs differ — is non-empty.  (When that subset is empty
the effective accuracy is the mean of an empty tensor, NaN, which is why
the unconditional claim fails; see the counterexample.) -/
theorem c5_metric_bounds :
    (∀ base_labels hypothesis_labels : List (List ℕ),
      base_labels.zip hypothesis_labels ≠ [] →
      ∃ r, accuracyMetric base_labels hypothesis_labels = some r ∧ 0 ≤ r ∧ r ≤ 1) ∧
    (∀ (O : Type) (_ : DecidableEq O) (base_labels hypothesis_labels : List (List ℕ))
        (clean_outputs corrupted_outputs : List O),
      maskSelect (same_outputs_vec base_labels hypothesis_labels)
        ((clean_outputs.zip corrupted_outputs).map (fun p => decide (p.1 ≠ p.2))) ≠ [] →
      ∃ r, effective_accuracy base_labels hypothesis_labels
          clean_outputs corrupted_outputs = some r ∧ 0 ≤ r ∧ r ≤ 1) ∧
    (∀ base_logits hypothesis_logits : List (List (List ℝ)),
      (∀ bp ∈ base_logits.zip hypothesis_logits,
        ∀ p ∈ bp.1.zip bp.2, p.1.length = p.2.length) →
      ((base_logits.zip hypothesis_logits).map
        (fun bp => (bp.1.zip bp.2).map
          (fun p => kl_div_row (log_softmax p.1) (log_softmax p.2)))).flatten ≠ [] →
      ∃ r, kl_div_metric base_logits hypothesis_logits = some r ∧ 0 ≤ r) := by
  refine ⟨?_, ?_, ?_⟩
  · intro bl hl hne
    apply torchMean_mem_unitInterval
    · simpa [same_outputs_vec] using hne
    · exact same_outputs_vec_mem_unit
  · intro O _ bl hl co cc hne
    apply torchMean_mem_unitInterval hne
    intro v hv
    rcases List.mem_map.1 hv with ⟨p, hp, rfl⟩
    have hmem := List.mem_filter.1 hp
    exact same_outputs_vec_mem_unit p.1 (List.of_mem_zip hmem.1).1
  · intro b h hshape hne
    set C := ((b.zip h).map
      (fun bp => (bp.1.zip bp.2).map
        (fun p => kl_div_row (log_softmax p.1) (log_softmax p.2)))).flatten with hC
    refine ⟨C.sum / C.length, ?_, ?_⟩
    · rw [kl_div_metric, torchMeanR, if_neg (by simpa only [List.isEmpty_iff] using hne)]
    · apply div_nonneg
      · apply List.sum_nonneg
        intro v hv
        rcases List.mem_flatten.1 hv with ⟨inner, hinner, hvin⟩
        rcases List.mem_map.1 hinner with ⟨bp, hbp, rfl⟩
        rcases List.mem_map.1 hvin with ⟨p, hp, rfl⟩
        exact kl_div_row_log_softmax_nonneg (hshape bp hbp p hp)
      · exact Nat.cast_nonneg _

/-- C5 counterexample: with a one-example batch whose clean and corrupted
ground-truth outputs coincide, the resample-only effective accuracy is
the mean of an empty selection — NaN (`none`), not a value in [0, 1] —
refuting the unconditional bound. -/
theorem c5_counterexample :
    effective_accuracy ([[0]] : List (List ℕ)) [[0]] ([0] : List ℕ) [0] = none ∧
    ¬ ∃ r : ℚ, effective_accuracy ([[0]] : List (List ℕ)) [[0]] ([0] : List ℕ) [0] = some r ∧
      0 ≤ r ∧ r ≤ 1 := by
  refine ⟨rfl, ?_⟩
  rintro ⟨r, hr, -, -⟩
  exact Option.noConfusion hr

/-- C5 witness: concrete non-degenerate instances of all three bounds. -/
theorem c5_witness :
    (([[0]] : List (List ℕ)).zip [[0]] ≠ [] ∧
      ∃ r, accuracyMetric [[0]] [[0]] = some r ∧ 0 ≤ r ∧ r ≤ 1) ∧
    (maskSelect (same_outputs_vec [[0]] [[0]])
        ((([0] : List ℕ).zip ([1] : List ℕ)).map (fun p => decide (p.1 ≠ p.2))) ≠ [] ∧
      ∃ r, effective_accuracy ([[0]] : List (List ℕ)) [[0]] ([0] : List ℕ) [1] = some r ∧
        0 ≤ r ∧ r ≤ 1) ∧
    ∃ r, kl_div_metric [[[0]]] [[[0]]] = some r ∧ 0 ≤ r :=
  ⟨⟨by decide, c5_metric_bounds.1 [[0]] [[0]] (by decide)⟩,
   ⟨by decide, c5_metric_bounds.2.1 ℕ inferInstance [[0]] [[0]] [0] [1] (by decide)⟩,
   c5_metric_bounds.2.2 [[[0]]] [[[0]]] (by simp) (by simp)⟩

lemma mem_take_of_get? {α : Type} {l : List α} {i j : ℕ} {a : α}
    (hij : i < j) (h : l.get? i = some a) : a ∈ l.take j := by
  have h2 : (l.take j).get? i = some a := by
    rw [List.get?_take hij]
    exact h
  exact List.get?_mem h2

lemma uniqIdxs_mem_lt {keys : List String} : ∀ i ∈ uniqIdxs keys, i < keys.length := by
  intro i hi
  rcases List.mem_map.1 hi with ⟨⟨j, a⟩, hp, rfl⟩
  have hpe : (j, a) ∈ keys.enum := (List.mem_filter.1 hp).1
  have hg : keys.get? j = some a := List.mk_mem_enum_iff_get?.1 hpe
  rcases List.get?_eq_some.1 hg with ⟨h, _⟩
  exact h

lemma uniqIdxs_get_pairwise (keys : List String) :
    (uniqIdxs keys).Pairwise (fun i j => keys.get? i ≠ keys.get? j) := by
  rw [uniqIdxs]
  rw [List.pairwise_map]
  have f1 : (keys.enum.filter (fun p => !(decide (p.2 ∈ keys.take p.1)))).Pairwise
      (fun a b => a.1 < b.1) := by
    have hm : (keys.enum.map Prod.fst).Pairwise (· < ·) := by
      rw [List.enum_map_fst]
      exact List.pairwise_lt_range _
    exact (List.pairwise_map.mp hm).sublist (List.filter_sublist _)
  apply List.Pairwise.imp_of_mem _ f1
  rintro ⟨ia, xa⟩ ⟨ib, xb⟩ ha hb hab
  have hfa := List.mem_filter.1 ha
  have hfb := List.mem_filter.1 hb
  have hga : keys.get? ia = some xa := List.mk_mem_enum_iff_get?.1 hfa.1
  have hgb : keys.get? ib = some xb := List.mk_mem_enum_iff_get?.1 hfb.1
  have hbnot : ¬ xb ∈ keys.take ib := by
    have := hfb.2
    simpa using this
  intro heq
  have hba : xa = xb := by
    rw [hga, hgb] at heq
    exact Option.some.inj heq
  exact hbnot (hba ▸ mem_take_of_get? hab hga)

lemma filterMap_get_nodup {β : Type} (l : List β) :
    ∀ idxs : List ℕ,
      idxs.Pairwise (fun i j => l.get? i ≠ l.get? j) →
      (∀ i ∈ idxs, i < l.length) →
      (idxs.filterMap (fun i => l.get? i)).Nodup := by
  intro idxs
  induction idxs with
  | nil => intro _ _; simp
  | cons i t ih =>
    intro hpw hin
    have hi : i < l.length := hin i (by simp)
    rcases List.get?_eq_some.2 ⟨hi, rfl⟩ with hgi
    rw [List.filterMap_cons, hgi]
    rcases List.pairwise_cons.1 hpw with ⟨hhead, htail⟩
    refine List.nodup_cons.2 ⟨?_, ih htail (fun j hj => hin j (by simp [hj]))⟩
    intro hmem
    rcases List.mem_filterMap.1 hmem with ⟨j, hj, hgj⟩
    exact hhead j hj (by rw [hgi, hgj])

lemma nodup_get?_pairwise {β : Type} {l : List β} (hl : l.Nodup) {idxs : List ℕ}
    (hnd : idxs.Nodup) (hin : ∀ i ∈ idxs, i < l.length) :
    idxs.Pairwise (fun i j => l.get? i ≠ l.get? j) := by
  apply List.Pairwise.imp_of_mem _ hnd
  intro i j hi hj hne heq
  have h1 : i < l.length := hin i hi
  have h2 : j < l.length := hin j hj
  rw [List.get?_eq_getElem? , List.get?_eq_getElem?, List.getElem?_eq_getElem h1,
    List.getElem?_eq_getElem h2] at heq
  exact hne ((List.Nodup.getElem_inj_iff hl).1 (Option.some.inj heq))

lemma selectIdxs_map_key {α β : Type} (key : α → β) (data : List α) (idxs : List ℕ) :
    (selectIdxs data idxs).map key = idxs.filterMap (fun i => (data.map key).get? i) := by
  rw [selectIdxs, List.map_filterMap]
  simp only [List.get?_map]

lemma selectIdxs_length {α : Type} {data : List α} {idxs : List ℕ}
    (hin : ∀ i ∈ idxs, i < data.length) :
    (selectIdxs data idxs).length = idxs.length := by
  induction idxs with
  | nil => rfl
  | cons i t ih =>
    have hi : i < data.length := hin i (by simp)
    rcases List.get?_eq_some.2 ⟨hi, rfl⟩ with hgi
    rw [selectIdxs, List.filterMap_cons, hgi]
    simpa [selectIdxs] using ih (fun j hj => hin j (by simp [hj]))

lemma selectIdxs_mem {α : Type} {data : List α} {idxs : List ℕ} :
    ∀ x ∈ selectIdxs data idxs, x ∈ data := by
  intro x hx
  rcases List.mem_filterMap.1 hx with ⟨i, _, hgi⟩
  exact List.get?_mem hgi

lemma nodup_fst_of_rowKey_nodup {l : List (List ℕ × ℕ)}
    (h : (l.map (fun p => rowKey p.1)).Nodup) : (l.map (fun p => p.1)).Nodup := by
  have hmm : (l.map (fun p => p.1)).map rowKey = l.map (fun p => rowKey p.1) := by
    rw [List.map_map]
    rfl
  exact List.Nodup.of_map rowKey (by rw [hmm]; exact h)

/-- C6: the unique-data selector returns the whole input space when it is
below the cap; otherwise it oversamples `3 * max_len` rows, deduplicates
by exact string identity keeping first occurrences, and — when still
above the cap — downsamples without replacement to exactly `max_len`
rows.  The returned rows are pairwise distinct input sequences by value
in every case, and each returned (input, output) pair is one of the
generated pairs, so inputs stay paired with their outputs.  The
`np.random.choice(len, max_len, replace=False)` draw enters as
`random_choice`, hypothesized by its contract; the small-space branch
trusts the generator to enumerate the full space without duplicates,
hypothesized by `hgen`. -/
theorem c6_unique_data_selector (total_len max_len : ℕ)
    (gen : ℕ → List (List ℕ × ℕ)) (random_choice : List ℕ)
    (hgen : total_len < max_len → ((gen total_len).map (fun p => p.1)).Nodup)
    (hc_nd : random_choice.Nodup)
    (hc_len : random_choice.length = max_len)
    (hc_mem : ∀ i ∈ random_choice, i < (uniq_stage max_len gen).length) :
    ((get_unique_data total_len max_len gen random_choice).map (fun p => p.1)).Nodup ∧
    (total_len < max_len → get_unique_data total_len max_len gen random_choice = gen total_len) ∧
    (max_len ≤ total_len → max_len < (uniq_stage max_len gen).length →
      (get_unique_data total_len max_len gen random_choice).length = max_len) ∧
    (max_len ≤ total_len →
      ∀ p ∈ get_unique_data total_len max_len gen random_choice, p ∈ gen (3 * max_len)) := by
  by_cases hT : total_len < max_len
  · have hud : get_unique_data total_len max_len gen random_choice = gen total_len := by
      rw [get_unique_data, if_pos hT]
    refine ⟨by rw [hud]; exact hgen hT, fun _ => hud, ?_, ?_⟩
    · intro h
      omega
    · intro h
      omega
  · have hud : get_unique_data total_len max_len gen random_choice =
        (if max_len < (uniq_stage max_len gen).length
          then selectIdxs (uniq_stage max_len gen) random_choice
          else uniq_stage max_len gen) := by
      rw [get_unique_data, if_neg hT]
    have hUniqKeys : ((uniq_stage max_len gen).map (fun p => rowKey p.1)).Nodup := by
      show ((selectIdxs (gen (3 * max_len))
        (uniqIdxs ((gen (3 * max_len)).map (fun p => rowKey p.1)))).map
          (fun p => rowKey p.1)).Nodup
      rw [selectIdxs_map_key]
      exact filterMap_get_nodup _ _ (uniqIdxs_get_pairwise _) uniqIdxs_mem_lt
    have hSelNodup : ((selectIdxs (uniq_stage max_len gen) random_choice).map
        (fun p => rowKey p.1)).Nodup := by
      rw [selectIdxs_map_key]
      apply filterMap_get_nodup
      · apply nodup_get?_pairwise hUniqKeys hc_nd
        intro i hi
        rw [List.length_map]
        exact hc_mem i hi
      · intro i hi
        rw [List.length_map]
        exact hc_mem i hi
    have hUS : ∀ p ∈ uniq_stage max_len gen, p ∈ gen (3 * max_len) := by
      intro p hp
      have hp' : p ∈ selectIdxs (gen (3 * max_len))
          (uniqIdxs ((gen (3 * max_len)).map (fun q => rowKey q.1))) := hp
      exact selectIdxs_mem p hp'
    refine ⟨?_, fun h => absurd h hT, ?_, ?_⟩
    · rw [hud]
      split_ifs with hd
      · exact nodup_fst_of_rowKey_nodup hSelNodup
      · exact nodup_fst_of_rowKey_nodup hUniqKeys
    · intro _ hd
      rw [hud, if_pos hd, selectIdxs_length hc_mem, hc_len]
    · intro _ p hp
      rw [hud] at hp
      split_ifs at hp with hd
      · exact hUS p (selectIdxs_mem p hp)
      · exact hUS p hp

/-- C6 witness: a 6-element oversample with three distinct inputs,
capped at 2. -/
theorem c6_witness :
    ((6 : ℕ) < 2 → (((fun n => ([([0], 0), ([1], 1), ([0], 0), ([1], 1), ([2], 2),
        ([0], 0)] : List (List ℕ × ℕ)).take n) 6).map (fun p => p.1)).Nodup) ∧
    ([2, 0] : List ℕ).Nodup ∧ ([2, 0] : List ℕ).length = 2 ∧
    (∀ i ∈ ([2, 0] : List ℕ), i < (uniq_stage 2
      (fun n => ([([0], 0), ([1], 1), ([0], 0), ([1], 1), ([2], 2),
        ([0], 0)] : List (List ℕ × ℕ)).take n)).length) ∧
    ((get_unique_data 6 2
      (fun n => ([([0], 0), ([1], 1), ([0], 0), ([1], 1), ([2], 2),
        ([0], 0)] : List (List ℕ × ℕ)).take n) [2, 0]).map (fun p => p.1)).Nodup ∧
    (get_unique_data 6 2
      (fun n => ([([0], 0), ([1], 1), ([0], 0), ([1], 1), ([2], 2),
        ([0], 0)] : List (List ℕ × ℕ)).take n) [2, 0]).length = 2 := by
  refine ⟨by decide, by decide, by decide, by decide, ?_, ?_⟩
  · exact (c6_unique_data_selector 6 2 _ [2, 0] (by decide) (by decide) (by decide)
      (by decide)).1
  · exact (c6_unique_data_selector 6 2 _ [2, 0] (by decide) (by decide) (by decide)
      (by decide)).2.2.1 (by decide) (by decide)

lemma decodeTorchIdx_encode (t : TorchIdx) (rest : List STok) :
    decodeTorchIdx (encodeTorchIdx t ++ rest) = some (t, rest) := by
  cases t with
  | ixNone => rfl
  | ixHead h => cases h <;> rfl

lemma decodeOptStr_encode (o : Option String) (rest : List STok) :
    decodeOptStr (encodeOptStr o ++ rest) = some (o, rest) := by
  cases o <;> rfl

lemma decodeOptIdx_encode (o : Option TorchIdx) (rest : List STok) :
    decodeOptIdx (encodeOptIdx o ++ rest) = some (o, rest) := by
  cases o with
  | none => rfl
  | some t =>
    show decodeOptIdx (.nTok 1 :: (encodeTorchIdx t ++ rest)) = some (some t, rest)
    rw [decodeOptIdx, decodeTorchIdx_encode]
    rfl

lemma decodeHLNode_encode (n : HLNode) (rest : List STok) :
    decodeHLNode (encodeHLNode n ++ rest) = some (n, rest) := by
  show decodeHLNode (.sTok n.name :: .sTok n.label :: .nTok n.num_classes ::
    (encodeOptIdx n.index ++ rest)) = some (n, rest)
  rw [decodeHLNode, decodeOptIdx_encode]
  rfl

lemma decodeLLNode_encode (l : LLNode) (rest : List STok) :
    decodeLLNode (encodeLLNode l ++ rest) = some (l, rest) := by
  show decodeLLNode (.sTok l.name ::
    ((encodeTorchIdx l.index ++ encodeOptStr l.subm) ++ rest)) = some (l, rest)
  rw [decodeLLNode, List.append_assoc, decodeTorchIdx_encode]
  show (decodeOptStr (encodeOptStr l.subm ++ rest)).bind _ = some (l, rest)
  rw [decodeOptStr_encode]
  rfl

lemma decodeLLNodes_encode (ls : List LLNode) (rest : List STok) :
    decodeLLNodes ls.length (ls.flatMap encodeLLNode ++ rest) = some (ls, rest) := by
  induction ls generalizing rest with
  | nil => rfl
  | cons l t ih =>
    show decodeLLNodes (t.length + 1)
      ((encodeLLNode l ++ t.flatMap encodeLLNode) ++ rest) = some (l :: t, rest)
    rw [decodeLLNodes, List.append_assoc, decodeLLNode_encode]
    show (decodeLLNodes t.length (t.flatMap encodeLLNode ++ rest)).bind _ = some (l :: t, rest)
    rw [ih]
    rfl

lemma decodeEntries_encode (c : Corr) (rest : List STok) :
    decodeEntries c.length (c.flatMap encodeEntry ++ rest) = some (c, rest) := by
  induction c generalizing rest with
  | nil => rfl
  | cons e t ih =>
    rw [List.length_cons]
    rw [show (e :: t).flatMap encodeEntry ++ rest =
        encodeHLNode e.1 ++ ((STok.nTok e.2.length :: e.2.flatMap encodeLLNode) ++
          (t.flatMap encodeEntry ++ rest)) from by
      simp [encodeEntry, List.flatMap_cons, List.append_assoc]]
    rw [decodeEntries, decodeHLNode_encode]
    simp only [Option.pure_def, Option.bind_eq_bind, Option.some_bind]
    show ((decodeLLNodes e.2.length
        (e.2.flatMap encodeLLNode ++ (t.flatMap encodeEntry ++ rest))).bind
      fun a => (decodeEntries t.length a.2).bind
        fun b => some ((e.1, a.1) :: b.1, b.2)) = some (e :: t, rest)
    rw [decodeLLNodes_encode]
    simp only [Option.some_bind]
    rw [ih]
    rfl

lemma keys_nodup_value_eq :
    ∀ {c : Corr}, (c.map (fun p => p.1)).Nodup →
      ∀ {n : HLNode} {va vb : List LLNode}, (n, va) ∈ c → (n, vb) ∈ c → va = vb := by
  intro c
  induction c with
  | nil =>
    intro _ n va vb ha
    simp at ha
  | cons e t ih =>
    intro h n va vb ha hb
    simp only [List.map_cons, List.nodup_cons] at h
    obtain ⟨hhead, htail⟩ := h
    rcases List.mem_cons.1 ha with ha1 | ha1 <;> rcases List.mem_cons.1 hb with hb1 | hb1
    · exact (Prod.ext_iff.1 (ha1.trans hb1.symm)).2
    · exfalso
      apply hhead
      have hmem : n ∈ t.map (fun p => p.1) := List.mem_map.2 ⟨(n, vb), hb1, rfl⟩
      rw [← ha1]
      exact hmem
    · exfalso
      apply hhead
      have hmem : n ∈ t.map (fun p => p.1) := List.mem_map.2 ⟨(n, va), ha1, rfl⟩
      rw [← hb1]
      exact hmem
    · exact ih htail ha1 hb1

/-- C7: persisting a correspondence and loading it back yields the same
correspondence — exactly, and hence also under Python dict/set equality
(same key set; set-equal values per key, insertion order irrelevant).
The pickling of these value types is modelled as the concrete token
serializer `corr_save`/`corr_load`; keys are unique as in a Python dict. -/
theorem c7_correspondence_roundtrip (c : Corr) (hne : c ≠ [])
    (hkeys : (c.map (fun p => p.1)).Nodup) :
    corr_load (corr_save c) = some c ∧
    ∀ d, corr_load (corr_save c) = some d → corrEquiv d c := by
  have h2 : decodeEntries c.length (c.flatMap encodeEntry) = some (c, []) := by
    have h3 := decodeEntries_encode c []
    rwa [List.append_nil] at h3
  have hload : corr_load (corr_save c) = some c := by
    show (match decodeEntries c.length (c.flatMap encodeEntry) with
      | some (entries, []) => some entries
      | _ => none) = some c
    rw [h2]
  refine ⟨hload, ?_⟩
  intro d hd
  rw [hload] at hd
  obtain rfl : c = d := Option.some.inj hd
  constructor
  · intro n
    exact Iff.rfl
  · intro n va vb hva hvb x
    rw [keys_nodup_value_eq hkeys hva hvb]

/-- C7 witness: a one-entry correspondence with two low-level nodes
survives the round trip. -/
theorem c7_witness :
    (exampleCorr ≠ [] ∧ (exampleCorr.map (fun p => p.1)).Nodup) ∧
    corr_load (corr_save exampleCorr) = some exampleCorr :=
  ⟨⟨by decide, by decide⟩, (c7_correspondence_roundtrip exampleCorr (by decide) (by decide)).1⟩

lemma sampleWithoutReplacement_prefix :
    ∀ (b : ℕ) (avail : List ℕ) (st1 st2 : ℕ → ℕ) (j : ℕ),
      (∀ x, j ≤ x → x < j + b → st1 x = st2 x) →
      sampleWithoutReplacement avail b st1 j = sampleWithoutReplacement avail b st2 j := by
  intro b
  induction b with
  | zero => intro avail st1 st2 j _; rfl
  | succ b ih =>
    intro avail st1 st2 j hagree
    have hj : st1 j = st2 j := hagree j le_rfl (by omega)
    rw [sampleWithoutReplacement, sampleWithoutReplacement, hj]
    rw [ih (avail.eraseIdx (st2 j % avail.length)) st1 st2 (j + 1)
      (fun x hx1 hx2 => hagree x (by omega) (by omega))]

/-- C10 (amended): the sampler's randomized step is a deterministic pure
function of its inputs *together with the process-global random state it
implicitly reads* — two runs with identical inputs agree whenever the
global streams agree on the draws consumed (the first `budget` draws) —
but `get_interventions` (and likewise `get_unique_data`) accepts no seed
argument, calling `random.sample` (resp. `np.random.choice`) on the
global generator, so identical inputs with different ambient global
states can yield different samples (see the counterexample) and
cross-run reproducibility exists only if the caller seeds the global
RNGs externally. -/
theorem c10_global_state_determinism (k m budget : ℕ) (st1 st2 : ℕ → ℕ)
    (hagree : ∀ x, x < budget → st1 x = st2 x) :
    get_intervention_indices_global k m budget st1 =
      get_intervention_indices_global k m budget st2 := by
  rw [get_intervention_indices_global, get_intervention_indices_global]
  by_cases hb : budget < m ^ k
  · rw [if_pos hb, if_pos hb, randomSample, randomSample,
      sampleWithoutReplacement_prefix budget (List.range (m ^ k)) st1 st2 0
        (fun x _ hx2 => hagree x (by omega))]
  · rw [if_neg hb, if_neg hb]

/-- C10 counterexample: identical inputs to the intervention sampler,
two ambient global random states, different outputs — the sampling is
not a function of the inputs (and any fixed explicit seed) alone, since
no explicit seed exists to supply. -/
theorem c10_counterexample :
    get_intervention_indices_global 1 2 1 (fun _ => 0) ≠
      get_intervention_indices_global 1 2 1 (fun _ => 1) := by
  decide

/-- C10 witness: two global streams agreeing on the single consumed draw
produce the same sample. -/
theorem c10_witness :
    (∀ x, x < 1 → (fun x => x) x = (fun x => if x < 1 then x else 99) x) ∧
    get_intervention_indices_global 1 2 1 (fun x => x) =
      get_intervention_indices_global 1 2 1 (fun x => if x < 1 then x else 99) :=
  ⟨by decide,
   c10_global_state_determinism 1 2 1 (fun x => x) (fun x => if x < 1 then x else 99)
     (by decide)⟩
